import Mathlib

/-!
# Food pantry knapsack (`maxcalorie.hh`): embedding and verification

The C++ source selects a set of food items maximising calories under a weight
limit, once by exhaustive search and once by dynamic programming.

Modelling conventions
* A finite `double` is the rational number it denotes. Every operation that rounds in
  C++ (an addition, a subtraction, the conversion of an integer counter) is its exact
  result rounded to the nearest double, ties to even, with a 53-bit significand and
  gradual underflow (`toDouble`). Overflow to infinity is not represented: the
  theorems bound their inputs (`IsDouble`) so that no sum reaches `2^1024`.
* `int` is a 32-bit integer: a conversion or an arithmetic result outside
  `INT_MIN .. INT_MAX` is undefined behaviour in C++ and makes the model return
  `none` (`toInt`, `checkInt`).
* `std::vector<std::shared_ptr<FoodItem>>` is a `List FoodItem`.
* `std::vector<std::vector<double>>` is a list of rows; an access outside the
  allocated range (undefined behaviour in C++) makes the model return `none`.
  Allocation of the table is taken to succeed.
-/

namespace MaxCalorie

/-! ## Floating point and machine integers -/

/-- Binary logarithm by repeated halving; the first argument bounds the number of
steps. -/
def log2Fuel : Nat → Nat → Nat
  | 0, _ => 0
  | fuel + 1, n => if n < 2 then 0 else log2Fuel fuel (n / 2) + 1

/-- Floor of the binary logarithm of a positive natural number. -/
def ilog2 (n : Nat) : Nat := log2Fuel n n

/-- The power `2^e` for an integer exponent. -/
def pow2 (e : Int) : ℚ :=
  if 0 ≤ e then ((2 ^ e.toNat : Nat) : ℚ) else 1 / ((2 ^ (-e).toNat : Nat) : ℚ)

/-- Rounding to the nearest integer, ties to the even one. -/
def roundHalfEven (q : ℚ) : Int :=
  if q - ⌊q⌋ < 1 / 2 then ⌊q⌋
  else if 1 / 2 < q - ⌊q⌋ then ⌊q⌋ + 1
  else if ⌊q⌋ % 2 = 0 then ⌊q⌋ else ⌊q⌋ + 1

/-- Binary exponent of a positive rational: the `p` with `2^p ≤ x < 2^(p+1)`. -/
def binExp (x : ℚ) : Int :=
  if x < pow2 ((ilog2 x.num.natAbs : Int) - (ilog2 x.den : Int)) then
    (ilog2 x.num.natAbs : Int) - (ilog2 x.den : Int) - 1
  else (ilog2 x.num.natAbs : Int) - (ilog2 x.den : Int)

/-- Rounding of a positive rational to a double: the significand is rounded to an
integer at the exponent `binExp x - 52`, or at `-1074` in the subnormal range. -/
def roundPos (x : ℚ) : ℚ :=
  (roundHalfEven (x / pow2 (max (binExp x - 52) (-1074))) : ℚ)
    * pow2 (max (binExp x - 52) (-1074))

/-- The double nearest to a rational (round to nearest, ties to even): the result of a
C++ `double` operation whose exact result is `x`. -/
def toDouble (x : ℚ) : ℚ :=
  if 0 < x then roundPos x else if x < 0 then -roundPos (-x) else 0

/-- A finite double of moderate size: it is its own rounding, and its magnitude is at
most `2^960`, so that a sum of fewer than `2^31` such numbers does not overflow. -/
def IsDouble (x : ℚ) : Prop :=
  toDouble x = x ∧ |x| ≤ ((2 ^ 960 : Nat) : ℚ)

instance (x : ℚ) : Decidable (IsDouble x) := by
  unfold IsDouble
  infer_instance

/-- The constant `INT_MAX` of a 32-bit `int`. -/
def INT_MAX : Int := 2147483647

/-- The constant `INT_MIN` of a 32-bit `int`. -/
def INT_MIN : Int := -2147483648

/-- Truncation towards zero, the value of the C++ conversion `double → int` when it is
defined. -/
def truncate (x : ℚ) : Int := if 0 ≤ x then ⌊x⌋ else ⌈x⌉

/-- An `int` result: a value outside `INT_MIN .. INT_MAX` is undefined behaviour
(`none`). -/
def checkInt (z : Int) : Option Int :=
  if INT_MIN ≤ z ∧ z ≤ INT_MAX then some z else none

/-- The C++ conversion `double → int`: truncation towards zero, undefined (`none`)
when the truncated value does not fit an `int`. -/
def toInt (x : ℚ) : Option Int := checkInt (truncate x)

/-! ## Data model -/

/-- One food item: description, weight in ounces, calories. -/
structure FoodItem where
  description : String
  weight : ℚ
  foodCalories : ℚ
deriving DecidableEq

/-- Alias mirroring `typedef std::vector<std::shared_ptr<FoodItem>> FoodVector`. -/
abbrev FoodVector := List FoodItem

/-- Total weight and total calories of a vector, accumulated left to right
from `0` with one rounded `double` addition per item, as in `sum_food_vector`. -/
def sum_food_vector (foods : FoodVector) : ℚ × ℚ :=
  foods.foldl
    (fun (acc : ℚ × ℚ) (food : FoodItem) =>
      (toDouble (acc.1 + food.weight), toDouble (acc.2 + food.foodCalories)))
    (0, 0)

/-! ## Exhaustive search -/

/-- Inner loop of `exhaustive_max_calories`: for `j = 0 .. n-1`, item `j` is
pushed onto the candidate when bit `j` of `i` is set. -/
def candidate (foods : FoodVector) (n i : Nat) : FoodVector :=
  (List.range n).filterMap
    (fun j => if (i >>> j) &&& 1 = 1 then foods[j]? else none)

/-- Loop-carried variables of `exhaustive_max_calories` (`bestWeightSum` is
written but never read, so it is not carried). -/
structure ExhState where
  best : FoodVector
  bestTotalCalories : ℚ
deriving DecidableEq

/-- One iteration of the outer loop of `exhaustive_max_calories`, for the
bitmask `i`. -/
def exhaustive_step (foods : FoodVector) (total_weight : ℚ)
    (st : ExhState) (i : Nat) : ExhState :=
  let cand := candidate foods foods.length i
  let weightSum := (sum_food_vector cand).1
  let calorieSum := (sum_food_vector cand).2
  if weightSum ≤ total_weight then
    if st.best.isEmpty ∨ calorieSum > st.bestTotalCalories then
      { best := cand, bestTotalCalories := (sum_food_vector cand).2 }
    else st
  else st

/-- State after the masks `0 .. k-1` have been processed. -/
def exhaustive_loop (foods : FoodVector) (total_weight : ℚ) (k : Nat) : ExhState :=
  (List.range k).foldl (exhaustive_step foods total_weight)
    { best := [], bestTotalCalories := 0 }

/-- The loop test `i < pow(2, n)`: the `uint64_t` counter is converted to `double`
(rounded) and compared with the double `2^n`. -/
def loopTest (n i : Nat) : Bool :=
  decide (toDouble (i : ℚ) < ((2 ^ n : Nat) : ℚ))

/-- The masks visited by the outer loop: `0, 1, 2, ...` for as long as the loop test
holds. For `n ≤ 63` the counter does not wrap and the test fails at `2^n` at the
latest, because `2^n` converts exactly. -/
def visitedMasks (n : Nat) : List Nat :=
  (List.range (2 ^ n)).takeWhile (loopTest n)

/-- Model of `exhaustive_max_calories` (for at most 63 items): the loop body is run
on the visited masks in increasing order, and `best` is returned. -/
def exhaustive_max_calories (foods : FoodVector) (total_weight : ℚ) : FoodVector :=
  ((visitedMasks foods.length).foldl (exhaustive_step foods total_weight)
    { best := [], bestTotalCalories := 0 }).best

/-- Total weight of a vector, first output of `sum_food_vector`. -/
def totalWeight (foods : FoodVector) : ℚ := (sum_food_vector foods).1

/-- Total calories of a vector, second output of `sum_food_vector`. -/
def totalCalories (foods : FoodVector) : ℚ := (sum_food_vector foods).2

/-! ## Dynamic programming -/

/-- The table `std::vector<std::vector<double>>`, a list of rows. -/
abbrev Table := List (List ℚ)

/-- Read `T[i][j]`; `none` when either index is out of range. -/
def Table.read (T : Table) (i j : Int) : Option ℚ :=
  if i < 0 ∨ j < 0 then none
  else
    match T[i.toNat]? with
    | none => none
    | some row => row[j.toNat]?

/-- Write `T[i][j] = v`; `none` when either index is out of range. -/
def Table.write (T : Table) (i j : Int) (v : ℚ) : Option Table :=
  if i < 0 ∨ j < 0 then none
  else
    match T[i.toNat]? with
    | none => none
    | some row =>
      if j.toNat < row.length then some (T.set i.toNat (row.set j.toNat v)) else none

/-- Read `source[i]`; `none` when the index is out of range. -/
def itemAt (source : FoodVector) (i : Int) : Option FoodItem :=
  if i < 0 then none else source[i.toNat]?

/-- Runs `body lo`, `body (lo+1)`, ... for `k` consecutive values of the counter. -/
def loopFrom {σ : Type} (body : Int → σ → Option σ) : Nat → Int → σ → Option σ
  | 0, _, s => some s
  | k + 1, lo, s => (body lo s).bind (loopFrom body k (lo + 1))

/-- The loop `for (int x = lo; x <= hi; x++) body`. The counter does not overflow
where the model runs a loop: the bounds are `n` and `W`, and a table is only obtained
when `n + 1` and `W + 1` fit an `int`. -/
def forLoop {σ : Type} (lo hi : Int) (body : Int → σ → Option σ) (s : σ) : Option σ :=
  loopFrom body (hi + 1 - lo).toNat lo s

/-- Construction `T(n+1, std::vector<double>(W+1))`: the two sizes are `int`
results; the table is zero-initialised; a negative size does not yield a table. -/
def newTable (n W : Int) : Option Table :=
  (checkInt (n + 1)).bind fun rows =>
  (checkInt (W + 1)).bind fun cols =>
  if rows < 0 ∨ cols < 0 then none
  else some (List.replicate rows.toNat (List.replicate cols.toNat 0))

/-- First initialisation loop: `T[init][j] = -1000` for `init ≥ 1`, `j ≥ 1`. -/
def initNegative (n W : Int) (T : Table) : Option Table :=
  forLoop 1 n (fun init T => forLoop 1 W (fun j T => T.write init j (-1000)) T) T

/-- Second initialisation loop: `T[0][j] = 0`. -/
def initRowZero (W : Int) (T : Table) : Option Table :=
  forLoop 0 W (fun j T => T.write 0 j 0) T

/-- Third initialisation loop: `T[i][0] = 0`. -/
def initColZero (n : Int) (T : Table) : Option Table :=
  forLoop 0 n (fun i T => T.write i 0 0) T

/-- Body of the fill loop for the cell `(i, j)`: the weight is converted to `int`,
`j - currentWeight` is an `int` result, and `maxTentative += T[i-1][...]` is a rounded
`double` addition. -/
def fillCell (source : FoodVector) (i j : Int) (T : Table) : Option Table :=
  (T.read (i - 1) j).bind fun maxTopDefault =>
  (itemAt source (i - 1)).bind fun item =>
  (toInt item.weight).bind fun currentWeight =>
  if j ≥ currentWeight then
    (checkInt (j - currentWeight)).bind fun remainingCapacity =>
    (T.read (i - 1) remainingCapacity).bind fun t =>
    T.write i j (max maxTopDefault (toDouble (item.foodCalories + t)))
  else
    T.write i j (max maxTopDefault 0)

/-- The fill loops: `i = 1 .. n`, `j = 0 .. W`. -/
def fillTable (source : FoodVector) (n W : Int) (T : Table) : Option Table :=
  forLoop 1 n (fun i T => forLoop 0 W (fun j T => fillCell source i j T) T) T

/-- The back-walk `while (i > 0)`, with `i` counting down to zero; `j -= weight`
is a rounded `double` subtraction converted back to `int`. -/
def backWalk (source : FoodVector) (T : Table) : Nat → Int → FoodVector → Option FoodVector
  | 0, _, best => some best
  | i + 1, j, best =>
    (T.read (i + 1 : Nat) j).bind fun a =>
    (T.read (i : Nat) j).bind fun b =>
    if a ≠ b then
      (itemAt source (i : Nat)).bind fun item =>
      (toInt (toDouble ((j : ℚ) - item.weight))).bind fun j' =>
      backWalk source T i j' (best ++ [item])
    else
      backWalk source T i j best

/-- The table of `dynamic_max_calories` after the initialisation and fill loops;
`const int W = total_weight` and `const int n = source->size()` are `int` results
(a catalog of more than `INT_MAX` items is outside the model and yields `none`). -/
def dpTable (foods : FoodVector) (total_weight : ℚ) : Option Table :=
  (toInt total_weight).bind fun W =>
  (checkInt (foods.length : Int)).bind fun n =>
  (newTable n W).bind fun T =>
  (initNegative n W T).bind fun T =>
  (initRowZero W T).bind fun T =>
  (initColZero n T).bind fun T =>
  fillTable foods n W T

/-- Model of `dynamic_max_calories`; `none` stands for undefined behaviour (an `int`
overflow or an out-of-range table access) or a table that cannot be built. -/
def dynamic_max_calories (foods : FoodVector) (total_weight : ℚ) : Option FoodVector :=
  (dpTable foods total_weight).bind fun T =>
  (toInt total_weight).bind fun W =>
  backWalk foods T foods.length W []

/-! ## Specification objects used by the proofs -/

/-- The knapsack recurrence on truncated weights with rounded additions: row `0` is
zero, and row `i+1` takes the larger of the value above and the value obtained with
item `i`. -/
def tableSpec (foods : FoodVector) : Nat → Int → ℚ
  | 0, _ => 0
  | i + 1, c =>
    match foods[i]? with
    | none => 0
    | some item =>
      max (tableSpec foods i c)
        (if c ≥ truncate item.weight then
          toDouble (item.foodCalories + tableSpec foods i (c - truncate item.weight))
        else 0)

/-- The back-walk replayed on `tableSpec` instead of the stored table. -/
def walkSpec (foods : FoodVector) : Nat → Int → FoodVector
  | 0, _ => []
  | i + 1, j =>
    match foods[i]? with
    | none => []
    | some item =>
      if tableSpec foods (i + 1) j ≠ tableSpec foods i j then
        item :: walkSpec foods i (truncate (toDouble ((j : ℚ) - item.weight)))
      else walkSpec foods i j

/-- Sum of the truncated weights, the quantity the table is indexed by. -/
def truncWeight (foods : FoodVector) : Int :=
  (foods.map (fun f => truncate f.weight)).sum

/-- Left-to-right sum of a list of doubles with one rounded addition per term. -/
def fsum (xs : List ℚ) : ℚ := xs.foldl (fun acc x => toDouble (acc + x)) 0

/-- The two fields of an item are finite doubles of moderate size. -/
def FoodItem.Representable (f : FoodItem) : Prop :=
  IsDouble f.weight ∧ IsDouble f.foodCalories

instance (f : FoodItem) : Decidable f.Representable := by
  unfold FoodItem.Representable
  infer_instance

/-- The values of a catalog add up without rounding: they are multiples of `2^(-s)`
and their total, in units of `2^(-s)`, is below `2^53`. -/
def ExactValues (foods : FoodVector) (s : Nat) : Prop :=
  s ≤ 1074 ∧ (∀ f ∈ foods, ∃ m : Nat, f.foodCalories = (m : ℚ) / (2 : ℚ) ^ s)
    ∧ (foods.map FoodItem.foodCalories).sum * (2 : ℚ) ^ s < (2 : ℚ) ^ 53

/-- Shape of a table: `r` rows of `c` columns each. -/
def Table.Dims (T : Table) (r c : Nat) : Prop :=
  T.length = r ∧ ∀ row ∈ T, row.length = c

/-- Invariant of the outer loop after the masks `0 .. k-1`. -/
structure ExhInv (foods : FoodVector) (W : ℚ) (k : Nat) (st : ExhState) : Prop where
  cal : st.bestTotalCalories = totalCalories st.best
  src : st.best = [] ∨ ∃ m, m < k ∧ totalWeight (candidate foods foods.length m) ≤ W
          ∧ st.best = candidate foods foods.length m
  opt : ∀ m, m < k → totalWeight (candidate foods foods.length m) ≤ W →
          totalCalories (candidate foods foods.length m) ≤ totalCalories st.best

/-- Rows `0 .. i-1` of the stored table agree with the recurrence on the columns
`0 .. W`. -/
def RowsOK (foods : FoodVector) (W : Int) (T : Table) (i : Int) : Prop :=
  ∀ m : Nat, (m : Int) < i → ∀ j : Int, 0 ≤ j → j ≤ W →
    T.read m j = some (tableSpec foods m j)

/-! ## The worked example of the specification -/

/-- Item `A` of the example catalog: weight 2, value 3. -/
def itemA : FoodItem := ⟨"A", 2, 3⟩

/-- Item `B` of the example catalog: weight 3, value 4. -/
def itemB : FoodItem := ⟨"B", 3, 4⟩

/-- Item `C` of the example catalog: weight 4, value 5. -/
def itemC : FoodItem := ⟨"C", 4, 5⟩

/-- Item `D` of the example catalog: weight 5, value 6. -/
def itemD : FoodItem := ⟨"D", 5, 6⟩

/-- The example catalog `[A, B, C, D]`. -/
def exampleCatalog : FoodVector := [itemA, itemB, itemC, itemD]

/-- A catalog with a fractional weight: `A` (weight 1, value 10) and `B`
(weight 1.5, value 1). -/
def fracCatalog : FoodVector := [⟨"A", 1, 10⟩, ⟨"B", 3 / 2, 1⟩]

/-- A single item of weight 1.5 and value 1. -/
def heavyHalf : FoodItem := ⟨"A", 3 / 2, 1⟩

/-- A single item of weight 0.5 and value 1. -/
def lightHalf : FoodItem := ⟨"A", 1 / 2, 1⟩

/-- A single item of weight 1 and value 0. -/
def zeroValued : FoodItem := ⟨"A", 1, 0⟩

/-- A single item of weight 2.5 and value 3. -/
def overweight : FoodItem := ⟨"A", 5 / 2, 3⟩


/-- Three items of weight 1 whose values are the doubles nearest to 0.1, 0.2 and
0.3. -/
def tenthsCatalog : FoodVector :=
  [⟨"a", 1, toDouble (1 / 10)⟩, ⟨"b", 1, toDouble (2 / 10)⟩, ⟨"c", 1, toDouble (3 / 10)⟩]

/-- An item whose weight, three thousand million, does not fit an `int`. -/
def giantItem : FoodItem := ⟨"A", 3000000000, 5⟩

/-- An item of weight 1 and value 1. -/
def unitItem : FoodItem := ⟨"u", 1, 1⟩

/-- A catalog of `k` copies of `unitItem`. -/
def units (k : Nat) : FoodVector := List.replicate k unitItem

/-- An item of weight 100 and value 7. -/
def heavyItem : FoodItem := ⟨"x", 100, 7⟩
/-! ## Remaining source functions of `maxcalorie.hh` -/

/-- The constructor `FoodItem::FoodItem` with its assertions enabled: a failed
`assert` aborts the construction (`none`). Only the description and the weight are
asserted; the calories are stored as given. -/
def FoodItem.construct (description : String) (weight_ounces calories : ℚ) :
    Option FoodItem :=
  if description.isEmpty then none
  else if weight_ounces > 0 then some ⟨description, weight_ounces, calories⟩
  else none

/-- Conversion of an `int` to `unsigned int`, applied by C++ when an `int` is compared
with an `unsigned int`. -/
def toUnsigned (x : Int) : Nat := (x % 2 ^ 32).toNat

/-- The loop of `filter_food_vector` over the remaining items of `source`, carrying
`selectedFoods` and `filteredFoods`; the early exit is the `break`. -/
def filter_loop (min_calories max_calories : ℚ) (total_size : Int) :
    FoodVector → Nat → FoodVector → FoodVector
  | [], _, filteredFoods => filteredFoods
  | food :: rest, selectedFoods, filteredFoods =>
    if selectedFoods ≤ toUnsigned total_size ∧
        (food.foodCalories ≥ min_calories ∧ food.foodCalories ≤ max_calories) then
      if (selectedFoods + 1) % 2 ^ 32 ≥ toUnsigned total_size then
        filteredFoods ++ [food]
      else
        filter_loop min_calories max_calories total_size rest
          ((selectedFoods + 1) % 2 ^ 32) (filteredFoods ++ [food])
    else
      filter_loop min_calories max_calories total_size rest selectedFoods filteredFoods

/-- Model of `filter_food_vector`. -/
def filter_food_vector (source : FoodVector) (min_calories max_calories : ℚ)
    (total_size : Int) : FoodVector :=
  filter_loop min_calories max_calories total_size source 0 []

/-- The selection criterion of `filter_food_vector`: calories in the inclusive range. -/
def inRange (min_calories max_calories : ℚ) (food : FoodItem) : Bool :=
  decide (food.foodCalories ≥ min_calories ∧ food.foodCalories ≤ max_calories)

/-- An item of weight 1 and value 3, used to exercise `filter_food_vector`. -/
def snack : FoodItem := ⟨"snack", 1, 3⟩


end MaxCalorie

/-!
# Sensor network clustering (`SensorCluster.cpp`)

Six hash tables keyed by NIC address, one per character position, and the choice of
the most balanced one. The header `SensorCluster.hpp` with the container types is not
part of the sources.
-/

namespace SensorCluster

/-! ## Hash functions -/

/-- The array `letters` of `hexa_to_number`, as written in the source (its last entry
is `'G'`). -/
def letters : List Char :=
  ['0', '1', '2', '3', '4', '5', '6', '7', '8', '9', 'A', 'B', 'C', 'D', 'E', 'G']

/-- The array `list` of `hexa_to_number`. -/
def list : List Nat := [0, 1, 2, 3, 4, 5, 6, 7, 8, 9, 10, 11, 12, 13, 14, 15]

/-- The search loop of `hexa_to_number`: the index of the first entry equal to the
target (`temp = i; break`), and `temp = 0` when no entry matches. -/
def searchLetters (target : Char) : List Char → Nat → Nat
  | [], _ => 0
  | c :: rest, i => if c = target then i else searchLetters target rest (i + 1)

/-- Model of `hexa_to_number`: `list[temp]` for the index found with `toupper(ch)`. -/
def hexa_to_number (ch : Char) : Nat :=
  list.getD (searchLetters ch.toUpper letters 0) 0

/-- Indexing `nic[i]` of a `std::string`: the character at `i`, the terminating null
character at `i = size()`, and `none` beyond (undefined behaviour). -/
def charAt (nic : String) (i : Nat) : Option Char :=
  if i < nic.length then nic.toList[i]?
  else if i = nic.length then some (Char.ofNat 0)
  else none

/-- Hash on the first character. -/
def hashfct1 (nic : String) : Option Nat := (charAt nic 0).map hexa_to_number

/-- Hash on the second character. -/
def hashfct2 (nic : String) : Option Nat := (charAt nic 1).map hexa_to_number

/-- Hash on the third character. -/
def hashfct3 (nic : String) : Option Nat := (charAt nic 2).map hexa_to_number

/-- Hash on the fourth character. -/
def hashfct4 (nic : String) : Option Nat := (charAt nic 3).map hexa_to_number

/-- Hash on the fifth character. -/
def hashfct5 (nic : String) : Option Nat := (charAt nic 4).map hexa_to_number

/-- Hash on the sixth character. -/
def hashfct6 (nic : String) : Option Nat := (charAt nic 5).map hexa_to_number

/-! ## The six tables -/

/-- The struct `Item`: a name and a NIC address. -/
structure Item where
  itemName_ : String
  nic_ : String
deriving DecidableEq

/-- Modelled from the spec: the container type of `hT1 .. hT6` is declared in
`SensorCluster.hpp`, which is not part of the sources; each table is taken as a map
keyed by NIC, stored as the list of its entries in insertion order. -/
structure HashTable where
  entries : List (String × Item)
deriving DecidableEq

/-- The keys of a table. -/
def HashTable.keys (t : HashTable) : List String := t.entries.map Prod.fst

/-- Modelled from the spec: `insert` on a map keyed by NIC adds the pair unless the key
is already present. -/
def HashTable.insert (t : HashTable) (nic : String) (item : Item) : HashTable :=
  if nic ∈ t.keys then t else ⟨t.entries ++ [(nic, item)]⟩

/-- Modelled from the spec: `erase(key)` removes the entries with that key and returns
how many were removed. -/
def HashTable.erase (t : HashTable) (nic : String) : HashTable × Nat :=
  (⟨t.entries.filter (fun e => e.1 != nic)⟩, (t.entries.filter (fun e => e.1 == nic)).length)

/-- Modelled from the spec: `size()` is the number of entries. -/
def HashTable.size (t : HashTable) : Nat := t.entries.length

/-- The class `SensorNIC`: the six hash tables. -/
structure SensorNIC where
  hT1 : HashTable
  hT2 : HashTable
  hT3 : HashTable
  hT4 : HashTable
  hT5 : HashTable
  hT6 : HashTable
deriving DecidableEq

/-- The network with six empty tables. -/
def SensorNIC.empty : SensorNIC := ⟨⟨[]⟩, ⟨[]⟩, ⟨[]⟩, ⟨[]⟩, ⟨[]⟩, ⟨[]⟩⟩

/-- Model of `SensorNIC::addItem`: the same pair is inserted into all six tables. -/
def SensorNIC.addItem (s : SensorNIC) (itemName nic : String) : SensorNIC :=
  let item : Item := ⟨itemName, nic⟩
  { hT1 := s.hT1.insert nic item
    hT2 := s.hT2.insert nic item
    hT3 := s.hT3.insert nic item
    hT4 := s.hT4.insert nic item
    hT5 := s.hT5.insert nic item
    hT6 := s.hT6.insert nic item }

/-- Model of `SensorNIC::removeItem`: the six erase counts are added and the sum is
converted to `bool`; every table has the key erased. -/
def SensorNIC.removeItem (s : SensorNIC) (nic : String) : Bool × SensorNIC :=
  (decide ((s.hT1.erase nic).2 + (s.hT2.erase nic).2 + (s.hT3.erase nic).2
      + (s.hT4.erase nic).2 + (s.hT5.erase nic).2 + (s.hT6.erase nic).2 ≠ 0),
    { hT1 := (s.hT1.erase nic).1
      hT2 := (s.hT2.erase nic).1
      hT3 := (s.hT3.erase nic).1
      hT4 := (s.hT4.erase nic).1
      hT5 := (s.hT5.erase nic).1
      hT6 := (s.hT6.erase nic).1 })

/-- Model of `SensorNIC::size`: `none` stands for the thrown `std::length_error`. -/
def SensorNIC.size (s : SensorNIC) : Option Nat :=
  if s.hT1.size ≠ s.hT2.size ∨ s.hT1.size ≠ s.hT3.size ∨ s.hT1.size ≠ s.hT4.size
      ∨ s.hT1.size ≠ s.hT5.size ∨ s.hT1.size ≠ s.hT6.size then none
  else some s.hT1.size

/-- A call of `addItem` or `removeItem`. -/
inductive Op where
  | add (itemName nic : String)
  | remove (nic : String)
deriving DecidableEq

/-- The network after one call. -/
def SensorNIC.step (s : SensorNIC) : Op → SensorNIC
  | Op.add itemName nic => s.addItem itemName nic
  | Op.remove nic => (s.removeItem nic).2

/-- The network reached from the empty one by a sequence of calls. -/
def SensorNIC.run (ops : List Op) : SensorNIC := ops.foldl SensorNIC.step SensorNIC.empty

/-- Whether the last call that named `nic` was an `addItem`. -/
def present (ops : List Op) (nic : String) : Bool :=
  ops.foldl
    (fun b op =>
      match op with
      | Op.add _ n => if n = nic then true else b
      | Op.remove n => if n = nic then false else b)
    false

/-- The six tables are identical and hold every key once. -/
def SensorNIC.Consistent (s : SensorNIC) : Prop :=
  s.hT2 = s.hT1 ∧ s.hT3 = s.hT1 ∧ s.hT4 = s.hT1 ∧ s.hT5 = s.hT1 ∧ s.hT6 = s.hT1
    ∧ s.hT1.keys.Nodup

/-! ## Choice of the hash function -/

/-- The constant `INT32_MAX`. -/
def INT32_MAX : Int := 2147483647

/-- Conversion of a `size_t` bucket size to `int` (wrapping to 32 bits). -/
def toInt32 (x : Nat) : Int := ((x : Int) + 2 ^ 31) % 2 ^ 32 - 2 ^ 31

/-- One iteration of the first loop of `bestHashing`, for the bucket `i`: the
(min, max) pair of each table `t` (key `t` of the `std::map`, table `hT(t+1)`) is
updated with the size of its bucket `i`. The bucket sizes are a parameter, because
they depend on the container declared in the missing header. -/
def scanStep (bucket_size : Nat → Nat → Nat) (tables : Nat → Int × Int) (i : Nat) :
    Nat → Int × Int :=
  fun t =>
    (min (toInt32 (bucket_size t i)) (tables t).1, max (toInt32 (bucket_size t i)) (tables t).2)

/-- The first loop of `bestHashing`: buckets `0 .. 9`, starting from `{INT32_MAX, 0}`. -/
def scanTables (bucket_size : Nat → Nat → Nat) : Nat → Int × Int :=
  (List.range 10).foldl (scanStep bucket_size) (fun _ => (INT32_MAX, 0))

/-- One iteration of the second loop of `bestHashing`, carrying `(bestIdx, bestDiff)`. -/
def pickStep (tables : Nat → Int × Int) (st : Int × Int) (i : Nat) : Int × Int :=
  if (tables i).2 - (tables i).1 ≤ st.2 ∧ (tables i).2 - (tables i).1 > 0 then
    ((i : Int), (tables i).2 - (tables i).1)
  else st

/-- State of the second loop after the tables `0 .. k-1`. -/
def pickLoop (tables : Nat → Int × Int) (k : Nat) : Int × Int :=
  (List.range k).foldl (pickStep tables) (-1, INT32_MAX)

/-- Model of `SensorNIC::bestHashing`: returns `bestIdx + 1`. -/
def bestHashing (bucket_size : Nat → Nat → Nat) : Nat :=
  ((pickLoop (scanTables bucket_size) 6).1 + 1).toNat

/-- Spread of table `t` as computed by `bestHashing`: largest minus smallest bucket size
over the buckets `0 .. 9`. -/
def spread (bucket_size : Nat → Nat → Nat) (t : Nat) : Int :=
  (scanTables bucket_size t).2 - (scanTables bucket_size t).1

/-- Spread of table `t` as the claim words it: the largest bucket size minus the
smallest bucket size over the inspected buckets `0 .. 9`, computed directly from the
bucket sizes. -/
def spreadSpec (bucket_size : Nat → Nat → Nat) (t : Nat) : Int :=
  (((List.range 10).map (bucket_size t)).foldl max 0 : Nat)
    - (((List.range 10).map (bucket_size t)).foldl min (bucket_size t 0) : Nat)

/-- Bucket sizes where table 1 is perfectly balanced (every bucket holds one entry) and
every other table has two entries in bucket 0 and none elsewhere. -/
def balancedFirst : Nat → Nat → Nat :=
  fun t i => if t = 0 then 1 else if i = 0 then 2 else 0

/-- Bucket sizes of the empty network. -/
def allEmpty : Nat → Nat → Nat := fun _ _ => 0

/-- Bucket sizes with spreads 3, 1, 2, 1, 5, 0 for the six tables. -/
def mixedBuckets : Nat → Nat → Nat :=
  fun t i =>
    if i = 0 then (if t = 0 then 3 else if t = 1 then 1 else if t = 2 then 2
      else if t = 3 then 1 else if t = 4 then 5 else 0)
    else 0

end SensorCluster

namespace MaxCalorie


/-! ## Rounding to a double -/

theorem log2Fuel_spec (fuel n : Nat) (hf : n ≤ fuel) (hn : n ≠ 0) :
    2 ^ log2Fuel fuel n ≤ n ∧ n < 2 ^ (log2Fuel fuel n + 1) := by
  induction fuel generalizing n with
  | zero => omega
  | succ fuel ih =>
    rw [log2Fuel]
    by_cases h2 : n < 2
    · rw [if_pos h2]
      have : n = 1 := by omega
      subst this
      simp
    · rw [if_neg h2]
      obtain ⟨h1, h3⟩ := ih (n / 2) (by omega) (by omega)
      constructor
      · rw [pow_succ]; omega
      · rw [pow_succ]; omega

theorem ilog2_spec (n : Nat) (hn : n ≠ 0) : 2 ^ ilog2 n ≤ n ∧ n < 2 ^ (ilog2 n + 1) :=
  log2Fuel_spec n n (le_refl _) hn

theorem pow2_eq_zpow (e : Int) : pow2 e = (2 : ℚ) ^ e := by
  unfold pow2
  by_cases h : 0 ≤ e
  · rw [if_pos h]
    obtain ⟨k, rfl⟩ := Int.eq_ofNat_of_zero_le h
    simp
  · rw [if_neg h]
    obtain ⟨k, hk⟩ : ∃ k : Nat, e = -(k : Int) := ⟨(-e).toNat, by omega⟩
    subst hk
    simp

theorem pow2_pos (e : Int) : 0 < pow2 e := by
  rw [pow2_eq_zpow]; positivity

theorem binExp_spec (x : ℚ) (hx : 0 < x) :
    (2 : ℚ) ^ binExp x ≤ x ∧ x < (2 : ℚ) ^ (binExp x + 1) := by
  have hnum : 0 < x.num := Rat.num_pos.2 hx
  have hden : x.den ≠ 0 := x.den_nz
  have hna : x.num.natAbs ≠ 0 := by omega
  obtain ⟨ha1, ha2⟩ := ilog2_spec x.num.natAbs hna
  obtain ⟨hb1, hb2⟩ := ilog2_spec x.den hden
  have hxeq : x = (x.num.natAbs : ℚ) / (x.den : ℚ) := by
    have h1 : ((x.num.natAbs : Int) : ℚ) = (x.num : ℚ) := by
      rw [Int.natAbs_of_nonneg (le_of_lt hnum)]
    have h2 : ((x.num.natAbs : Nat) : ℚ) = ((x.num.natAbs : Int) : ℚ) := (Int.cast_natCast _).symm
    rw [h2, h1]
    exact (Rat.num_div_den x).symm
  have hdpos : (0 : ℚ) < (x.den : ℚ) := by exact_mod_cast Nat.pos_of_ne_zero hden
  have qa1 : (2 : ℚ) ^ (ilog2 x.num.natAbs) ≤ (x.num.natAbs : ℚ) := by exact_mod_cast ha1
  have qa2 : (x.num.natAbs : ℚ) < (2 : ℚ) ^ (ilog2 x.num.natAbs + 1) := by exact_mod_cast ha2
  have qb1 : (2 : ℚ) ^ (ilog2 x.den) ≤ (x.den : ℚ) := by exact_mod_cast hb1
  have qb2 : (x.den : ℚ) < (2 : ℚ) ^ (ilog2 x.den + 1) := by exact_mod_cast hb2
  set La := ilog2 x.num.natAbs with hLa
  set Lb := ilog2 x.den with hLb
  have two_ne : (2 : ℚ) ≠ 0 := by norm_num
  -- upper: x < 2 ^ (La - Lb + 1)
  have hup : x < (2 : ℚ) ^ ((La : Int) - (Lb : Int) + 1) := by
    have : (2 : ℚ) ^ ((La : Int) - (Lb : Int) + 1) = (2 : ℚ) ^ (La + 1) / (2 : ℚ) ^ Lb := by
      rw [show ((La : Int) - (Lb : Int) + 1) = ((La + 1 : Nat) : Int) - ((Lb : Nat) : Int) by push_cast; ring,
        zpow_sub₀ two_ne, zpow_natCast, zpow_natCast]
    rw [this, hxeq, div_lt_div_iff₀ hdpos (by positivity)]
    calc (x.num.natAbs : ℚ) * (2 : ℚ) ^ Lb ≤ (x.num.natAbs : ℚ) * (x.den : ℚ) := by
          apply mul_le_mul_of_nonneg_left qb1; positivity
      _ < (2 : ℚ) ^ (La + 1) * (x.den : ℚ) := by
          apply mul_lt_mul_of_pos_right qa2 hdpos
  -- lower: 2 ^ (La - Lb - 1) ≤ x
  have hlo : (2 : ℚ) ^ ((La : Int) - (Lb : Int) - 1) ≤ x := by
    have : (2 : ℚ) ^ ((La : Int) - (Lb : Int) - 1) = (2 : ℚ) ^ La / (2 : ℚ) ^ (Lb + 1) := by
      rw [show ((La : Int) - (Lb : Int) - 1) = ((La : Nat) : Int) - ((Lb + 1 : Nat) : Int) by push_cast; ring,
        zpow_sub₀ two_ne, zpow_natCast, zpow_natCast]
    rw [this, hxeq, div_le_div_iff₀ (by positivity) hdpos]
    calc (2 : ℚ) ^ La * (x.den : ℚ) ≤ (x.num.natAbs : ℚ) * (x.den : ℚ) := by
          apply mul_le_mul_of_nonneg_right qa1 (le_of_lt hdpos)
      _ ≤ (x.num.natAbs : ℚ) * (2 : ℚ) ^ (Lb + 1) := by
          apply mul_le_mul_of_nonneg_left (le_of_lt qb2); positivity
  unfold binExp
  rw [pow2_eq_zpow]
  by_cases hlt : x < (2 : ℚ) ^ ((La : Int) - (Lb : Int))
  · rw [if_pos hlt]
    refine ⟨hlo, ?_⟩
    rw [sub_add_cancel]; exact hlt
  · rw [if_neg hlt]
    exact ⟨not_lt.1 hlt, hup⟩

theorem binExp_mono (x y : ℚ) (hx : 0 < x) (hxy : x ≤ y) : binExp x ≤ binExp y := by
  obtain ⟨h1, _⟩ := binExp_spec x hx
  obtain ⟨_, h4⟩ := binExp_spec y (lt_of_lt_of_le hx hxy)
  have : (2 : ℚ) ^ binExp x < (2 : ℚ) ^ (binExp y + 1) := lt_of_le_of_lt (le_trans h1 hxy) h4
  have := (zpow_lt_zpow_iff_right₀ (by norm_num : (1 : ℚ) < 2)).1 this
  omega

theorem binExp_lt_of_lt (x : ℚ) (hx : 0 < x) (k : Int) (h : x < (2 : ℚ) ^ k) : binExp x < k := by
  obtain ⟨h1, _⟩ := binExp_spec x hx
  exact (zpow_lt_zpow_iff_right₀ (by norm_num : (1 : ℚ) < 2)).1 (lt_of_le_of_lt h1 h)

theorem roundHalfEven_intCast (z : Int) : roundHalfEven (z : ℚ) = z := by
  unfold roundHalfEven
  simp

theorem roundHalfEven_mono (p q : ℚ) (h : p ≤ q) : roundHalfEven p ≤ roundHalfEven q := by
  have hfl : ⌊p⌋ ≤ ⌊q⌋ := Int.floor_le_floor h
  have hp1 : roundHalfEven p ≤ ⌊p⌋ + 1 := by
    unfold roundHalfEven; split_ifs <;> omega
  have hq0 : ⌊q⌋ ≤ roundHalfEven q := by
    unfold roundHalfEven; split_ifs <;> omega
  by_cases hlt : ⌊p⌋ < ⌊q⌋
  · omega
  · have heq : ⌊p⌋ = ⌊q⌋ := by omega
    unfold roundHalfEven
    rw [heq]
    have hfr : p - (⌊q⌋ : ℚ) ≤ q - (⌊q⌋ : ℚ) := by linarith
    split_ifs <;> first | omega | (exfalso; linarith)

theorem roundHalfEven_le (q : ℚ) (N : Int) (h : q ≤ N) : roundHalfEven q ≤ N := by
  have := roundHalfEven_mono q N h
  rwa [roundHalfEven_intCast] at this

theorem le_roundHalfEven (q : ℚ) (N : Int) (h : (N : ℚ) ≤ q) : N ≤ roundHalfEven q := by
  have := roundHalfEven_mono N q h
  rwa [roundHalfEven_intCast] at this

theorem roundPos_eq (x : ℚ) :
    roundPos x = (roundHalfEven (x / (2 : ℚ) ^ (max (binExp x - 52) (-1074))) : ℚ)
      * (2 : ℚ) ^ (max (binExp x - 52) (-1074)) := by
  unfold roundPos
  rw [pow2_eq_zpow]

theorem roundPos_nonneg (x : ℚ) (hx : 0 < x) : 0 ≤ roundPos x := by
  rw [roundPos_eq]
  apply mul_nonneg _ (by positivity)
  have : (0 : Int) ≤ roundHalfEven (x / (2 : ℚ) ^ (max (binExp x - 52) (-1074))) := by
    apply le_roundHalfEven
    simp only [Int.cast_zero]
    positivity
  exact_mod_cast this

theorem roundPos_le_pow (x : ℚ) (hx : 0 < x) :
    roundPos x ≤ (2 : ℚ) ^ (53 + max (binExp x - 52) (-1074)) := by
  obtain ⟨_, h2⟩ := binExp_spec x hx
  rw [roundPos_eq]
  set E := max (binExp x - 52) (-1074) with hE
  have hEge : binExp x - 52 ≤ E := le_max_left _ _
  have hpos : (0 : ℚ) < (2 : ℚ) ^ E := by positivity
  have hq : x / (2 : ℚ) ^ E ≤ (((2 : Int) ^ 53 : Int) : ℚ) := by
    rw [div_le_iff₀ hpos]
    have h3 : (2 : ℚ) ^ (binExp x + 1) ≤ (2 : ℚ) ^ (53 + E) :=
      zpow_le_zpow_right₀ (by norm_num) (by omega)
    have h4 : (2 : ℚ) ^ (53 + E) = (((2 : Int) ^ 53 : Int) : ℚ) * (2 : ℚ) ^ E := by
      rw [zpow_add₀ (by norm_num : (2 : ℚ) ≠ 0)]
      norm_num
    linarith
  have hr := roundHalfEven_le _ _ hq
  have hr' : (roundHalfEven (x / (2 : ℚ) ^ E) : ℚ) ≤ (((2 : Int) ^ 53 : Int) : ℚ) := by
    exact_mod_cast hr
  calc (roundHalfEven (x / (2 : ℚ) ^ E) : ℚ) * (2 : ℚ) ^ E
      ≤ (((2 : Int) ^ 53 : Int) : ℚ) * (2 : ℚ) ^ E := mul_le_mul_of_nonneg_right hr' (le_of_lt hpos)
    _ = (2 : ℚ) ^ (53 + E) := by
      rw [zpow_add₀ (by norm_num : (2 : ℚ) ≠ 0)]
      norm_num

theorem pow_le_roundPos (x : ℚ) (hx : 0 < x) (E : Int) (hE : E ≤ binExp x - 52)
    (hmax : max (binExp x - 52) (-1074) = E) :
    (2 : ℚ) ^ (52 + E) ≤ roundPos x := by
  obtain ⟨h1, _⟩ := binExp_spec x hx
  rw [roundPos_eq, hmax]
  have hpos : (0 : ℚ) < (2 : ℚ) ^ E := by positivity
  have hq : (((2 : Int) ^ 52 : Int) : ℚ) ≤ x / (2 : ℚ) ^ E := by
    rw [le_div_iff₀ hpos]
    have h3 : (2 : ℚ) ^ (52 + E) ≤ (2 : ℚ) ^ (binExp x) :=
      zpow_le_zpow_right₀ (by norm_num) (by omega)
    have h4 : (2 : ℚ) ^ (52 + E) = (((2 : Int) ^ 52 : Int) : ℚ) * (2 : ℚ) ^ E := by
      rw [zpow_add₀ (by norm_num : (2 : ℚ) ≠ 0)]
      norm_num
    linarith
  have hr := le_roundHalfEven _ _ hq
  have hr' : (((2 : Int) ^ 52 : Int) : ℚ) ≤ (roundHalfEven (x / (2 : ℚ) ^ E) : ℚ) := by
    exact_mod_cast hr
  calc (2 : ℚ) ^ (52 + E) = (((2 : Int) ^ 52 : Int) : ℚ) * (2 : ℚ) ^ E := by
        rw [zpow_add₀ (by norm_num : (2 : ℚ) ≠ 0)]
        norm_num
    _ ≤ (roundHalfEven (x / (2 : ℚ) ^ E) : ℚ) * (2 : ℚ) ^ E :=
        mul_le_mul_of_nonneg_right hr' (le_of_lt hpos)

theorem roundPos_mono (x y : ℚ) (hx : 0 < x) (hxy : x ≤ y) : roundPos x ≤ roundPos y := by
  have hy : 0 < y := lt_of_lt_of_le hx hxy
  have hb := binExp_mono x y hx hxy
  by_cases hE : max (binExp x - 52) (-1074) = max (binExp y - 52) (-1074)
  · rw [roundPos_eq, roundPos_eq, hE]
    have hpos : (0 : ℚ) < (2 : ℚ) ^ (max (binExp y - 52) (-1074)) := by positivity
    apply mul_le_mul_of_nonneg_right _ (le_of_lt hpos)
    have := roundHalfEven_mono (x / (2 : ℚ) ^ (max (binExp y - 52) (-1074)))
      (y / (2 : ℚ) ^ (max (binExp y - 52) (-1074))) (div_le_div_of_nonneg_right hxy (le_of_lt hpos))
    exact_mod_cast this
  · have hlt : max (binExp x - 52) (-1074) < max (binExp y - 52) (-1074) := by omega
    have hEy : max (binExp y - 52) (-1074) = binExp y - 52 := by omega
    have h1 := roundPos_le_pow x hx
    have h2 := pow_le_roundPos y hy (binExp y - 52) (le_refl _) hEy
    have h3 : (2 : ℚ) ^ (53 + max (binExp x - 52) (-1074)) ≤ (2 : ℚ) ^ (52 + (binExp y - 52)) :=
      zpow_le_zpow_right₀ (by norm_num) (by omega)
    exact le_trans h1 (le_trans h3 h2)

theorem roundPos_exact (z s : Nat) (hz : 0 < z) (hz' : z < 2 ^ 53) (hs : s ≤ 1074) :
    roundPos ((z : ℚ) / (2 : ℚ) ^ s) = (z : ℚ) / (2 : ℚ) ^ s := by
  have hx : (0 : ℚ) < (z : ℚ) / (2 : ℚ) ^ s := by positivity
  have hlt : (z : ℚ) / (2 : ℚ) ^ s < (2 : ℚ) ^ ((53 : Int) - (s : Int)) := by
    rw [zpow_sub₀ (by norm_num : (2 : ℚ) ≠ 0), zpow_natCast]
    apply div_lt_div_of_pos_right _ (by positivity)
    exact_mod_cast hz'
  have hb := binExp_lt_of_lt _ hx _ hlt
  rw [roundPos_eq]
  set E := max (binExp ((z : ℚ) / (2 : ℚ) ^ s) - 52) (-1074) with hE
  have hEle : E ≤ -(s : Int) := by omega
  obtain ⟨k, hk⟩ : ∃ k : Nat, -(s : Int) - E = k := ⟨(-(s : Int) - E).toNat, by omega⟩
  have hEeq : E = -(s : Int) - (k : Int) := by rw [← hk]; ring
  have hint : (z : ℚ) / (2 : ℚ) ^ s / (2 : ℚ) ^ E = (((z * 2 ^ k : Nat) : Int) : ℚ) := by
    rw [hEeq, zpow_sub₀ (by norm_num : (2 : ℚ) ≠ 0), zpow_neg, zpow_natCast, zpow_natCast]
    push_cast
    field_simp
    ring
  rw [hint, roundHalfEven_intCast, hEeq, zpow_sub₀ (by norm_num : (2 : ℚ) ≠ 0), zpow_neg,
    zpow_natCast, zpow_natCast]
  push_cast
  field_simp
  ring

theorem toDouble_zero : toDouble 0 = 0 := by
  simp [toDouble]

theorem toDouble_of_pos (x : ℚ) (hx : 0 < x) : toDouble x = roundPos x := by
  simp [toDouble, hx]

theorem toDouble_of_neg (x : ℚ) (hx : x < 0) : toDouble x = -roundPos (-x) := by
  have : ¬ 0 < x := not_lt.2 (le_of_lt hx)
  simp [toDouble, hx, this]

theorem toDouble_neg (x : ℚ) : toDouble (-x) = -toDouble x := by
  rcases lt_trichotomy x 0 with h | h | h
  · rw [toDouble_of_neg x h, toDouble_of_pos (-x) (by linarith)]
    simp
  · subst h; simp [toDouble_zero]
  · rw [toDouble_of_pos x h, toDouble_of_neg (-x) (by linarith)]
    simp

theorem toDouble_nonneg (x : ℚ) (hx : 0 ≤ x) : 0 ≤ toDouble x := by
  rcases eq_or_lt_of_le hx with h | h
  · rw [← h, toDouble_zero]
  · rw [toDouble_of_pos x h]; exact roundPos_nonneg x h

theorem toDouble_nonpos (x : ℚ) (hx : x ≤ 0) : toDouble x ≤ 0 := by
  have := toDouble_nonneg (-x) (by linarith)
  rw [toDouble_neg] at this
  linarith

theorem toDouble_mono (x y : ℚ) (hxy : x ≤ y) : toDouble x ≤ toDouble y := by
  rcases lt_trichotomy 0 x with hx | hx | hx
  · rw [toDouble_of_pos x hx, toDouble_of_pos y (lt_of_lt_of_le hx hxy)]
    exact roundPos_mono x y hx hxy
  · subst hx
    rw [toDouble_zero]; exact toDouble_nonneg y hxy
  · rcases lt_or_le y 0 with hy | hy
    · rw [toDouble_of_neg x hx, toDouble_of_neg y hy]
      have := roundPos_mono (-y) (-x) (by linarith) (by linarith)
      linarith
    · exact le_trans (toDouble_nonpos x (le_of_lt hx)) (toDouble_nonneg y hy)

theorem toDouble_exact_nat (z s : Nat) (hz' : z < 2 ^ 53) (hs : s ≤ 1074) :
    toDouble ((z : ℚ) / (2 : ℚ) ^ s) = (z : ℚ) / (2 : ℚ) ^ s := by
  rcases Nat.eq_zero_or_pos z with h | h
  · subst h; simp [toDouble_zero]
  · rw [toDouble_of_pos _ (by positivity)]
    exact roundPos_exact z s h hz' hs

theorem toDouble_exact (z : Int) (s : Nat) (hz : |z| < 2 ^ 53) (hs : s ≤ 1074) :
    toDouble ((z : ℚ) / (2 : ℚ) ^ s) = (z : ℚ) / (2 : ℚ) ^ s := by
  rcases le_or_lt 0 z with h | h
  · obtain ⟨n, rfl⟩ := Int.eq_ofNat_of_zero_le h
    have hn : n < 2 ^ 53 := by
      rw [abs_of_nonneg h] at hz
      exact_mod_cast hz
    simpa using toDouble_exact_nat n s hn hs
  · obtain ⟨n, hn⟩ : ∃ n : Nat, z = -(n : Int) := ⟨(-z).toNat, by omega⟩
    subst hn
    have hn' : n < 2 ^ 53 := by
      rw [abs_neg, abs_of_nonneg (Int.natCast_nonneg n)] at hz
      exact_mod_cast hz
    have := toDouble_exact_nat n s hn' hs
    have e : (((-(n : Int) : Int) : ℚ)) / (2 : ℚ) ^ s = -((n : ℚ) / (2 : ℚ) ^ s) := by
      push_cast; ring
    rw [e, toDouble_neg, this]

theorem toDouble_intCast (z : Int) (hz : |z| < 2 ^ 53) : toDouble (z : ℚ) = z := by
  simpa using toDouble_exact z 0 hz (by omega)

theorem toDouble_natCast (n : Nat) (hn : n < 2 ^ 53) : toDouble (n : ℚ) = n := by
  simpa using toDouble_exact_nat n 0 hn (by omega)

theorem toDouble_repr (x : ℚ) :
    ∃ (M E : Int), -1074 ≤ E ∧ |M| ≤ 2 ^ 53 ∧ toDouble x = (M : ℚ) * (2 : ℚ) ^ E := by
  have key : ∀ y : ℚ, 0 < y → ∃ (M E : Int), -1074 ≤ E ∧ 0 ≤ M ∧ M ≤ 2 ^ 53
      ∧ roundPos y = (M : ℚ) * (2 : ℚ) ^ E := by
    intro y hy
    refine ⟨roundHalfEven (y / (2 : ℚ) ^ (max (binExp y - 52) (-1074))),
      max (binExp y - 52) (-1074), le_max_right _ _, ?_, ?_, roundPos_eq y⟩
    · apply le_roundHalfEven
      simp only [Int.cast_zero]
      positivity
    · have h := roundPos_le_pow y hy
      rw [roundPos_eq, zpow_add₀ (by norm_num : (2 : ℚ) ≠ 0)] at h
      have hpos : (0 : ℚ) < (2 : ℚ) ^ (max (binExp y - 52) (-1074)) := by positivity
      have h' := le_of_mul_le_mul_right h hpos
      exact_mod_cast h'
  rcases lt_trichotomy 0 x with hx | hx | hx
  · obtain ⟨M, E, hE, hM0, hM, hr⟩ := key x hx
    exact ⟨M, E, hE, by rw [abs_of_nonneg hM0]; exact hM, by rw [toDouble_of_pos x hx, hr]⟩
  · subst hx
    exact ⟨0, 0, by omega, by simp, by simp [toDouble_zero]⟩
  · obtain ⟨M, E, hE, hM0, hM, hr⟩ := key (-x) (by linarith)
    refine ⟨-M, E, hE, by rw [abs_neg, abs_of_nonneg hM0]; exact hM, ?_⟩
    rw [toDouble_of_neg x hx, hr]
    push_cast; ring

/-! ## Conversions to `int` -/

theorem truncate_nonneg (x : ℚ) (h : 0 ≤ x) : 0 ≤ truncate x := by
  simp [truncate, h, Int.floor_nonneg]

theorem truncate_intCast (k : Int) : truncate (k : ℚ) = k := by
  unfold truncate
  split <;> simp

theorem truncate_natCast (k : Nat) : truncate (k : ℚ) = k := by
  have := truncate_intCast (k : Int)
  simpa using this

theorem truncate_of_pos (w : ℚ) (hw : 0 < w) : truncate w = ⌊w⌋ := by
  simp [truncate, le_of_lt hw]

theorem truncate_le_of_le (y : ℚ) (k : Int) (h : y ≤ k) : truncate y ≤ k := by
  unfold truncate
  by_cases h0 : 0 ≤ y
  · rw [if_pos h0]
    have : ⌊y⌋ < k + 1 := by
      rw [Int.floor_lt]
      push_cast
      linarith
    omega
  · rw [if_neg h0, Int.ceil_le]
    exact h

theorem truncate_nonneg_of_gt (y : ℚ) (h : -1 < y) : 0 ≤ truncate y := by
  by_cases h0 : 0 ≤ y
  · exact truncate_nonneg y h0
  · unfold truncate
    rw [if_neg h0]
    have : (-1 : Int) < ⌈y⌉ := by
      rw [Int.lt_ceil]
      simpa using h
    omega

theorem truncate_lt_of_lt (w : ℚ) (hw : 0 < w) (k : Int) (h : w < k) : truncate w < k := by
  rw [truncate_of_pos w hw, Int.floor_lt]
  exact h

theorem checkInt_of_bounds (z : Int) (h1 : INT_MIN ≤ z) (h2 : z ≤ INT_MAX) :
    checkInt z = some z := by
  unfold checkInt
  rw [if_pos ⟨h1, h2⟩]

theorem checkInt_eq_some (z r : Int) (h : checkInt z = some r) :
    r = z ∧ INT_MIN ≤ z ∧ z ≤ INT_MAX := by
  unfold checkInt at h
  by_cases hb : INT_MIN ≤ z ∧ z ≤ INT_MAX
  · rw [if_pos hb] at h
    exact ⟨(Option.some.inj h).symm, hb.1, hb.2⟩
  · rw [if_neg hb] at h
    exact Option.noConfusion h

theorem toInt_of_bounds (x : ℚ) (h1 : INT_MIN ≤ truncate x) (h2 : truncate x ≤ INT_MAX) :
    toInt x = some (truncate x) :=
  checkInt_of_bounds _ h1 h2

theorem toInt_natCast (k : Nat) (hk : (k : Int) ≤ INT_MAX) : toInt (k : ℚ) = some (k : Int) := by
  unfold toInt
  rw [truncate_natCast]
  exact checkInt_of_bounds _ (by unfold INT_MIN; omega) hk

theorem toInt_weight (w : ℚ) (hw : 0 < w) (hlt : w < 2147483648) :
    toInt w = some (truncate w) ∧ 0 ≤ truncate w ∧ truncate w ≤ INT_MAX := by
  have h0 := truncate_nonneg w (le_of_lt hw)
  have h1 : truncate w < 2147483648 := truncate_lt_of_lt w hw 2147483648 (by exact_mod_cast hlt)
  have h2 : truncate w ≤ INT_MAX := by unfold INT_MAX; omega
  exact ⟨toInt_of_bounds w (by unfold INT_MIN; omega) h2, h0, h2⟩

/-- A double strictly between an integer `j ≥ 0` and `j + 1` is at least `2^(-53)` away
from `j + 1`, so `j - w` rounds to a value above `-1`. -/
theorem toDouble_sub_gt_neg_one (w : ℚ) (hd : toDouble w = w) (j : Int) (hj0 : 0 ≤ j)
    (hj : j < 2 ^ 31) (h1 : (j : ℚ) < w) (h2 : w < (j : ℚ) + 1) :
    -1 < toDouble ((j : ℚ) - w) := by
  by_cases hhalf : w ≤ 1 / 2
  · have hj00 : j = 0 := by
      have : (j : ℚ) < 1 := by linarith
      have : j < 1 := by exact_mod_cast this
      omega
    subst hj00
    rw [Int.cast_zero, zero_sub]
    have hm := toDouble_mono (((-1 : Int) : ℚ) / (2 : ℚ) ^ 1) (-w) (by norm_num; linarith)
    rw [toDouble_exact (-1) 1 (by norm_num) (by omega)] at hm
    norm_num at hm
    linarith
  · have hw : 1 / 2 < w := not_le.1 hhalf
    obtain ⟨M, E, hE, hM, hrep⟩ := toDouble_repr w
    rw [hd] at hrep
    have hpE : (0 : ℚ) < (2 : ℚ) ^ E := by positivity
    have hMpos : 0 < M := by
      by_contra hc
      have : (M : ℚ) ≤ 0 := by exact_mod_cast not_lt.1 hc
      have : (M : ℚ) * (2 : ℚ) ^ E ≤ 0 := mul_nonpos_of_nonpos_of_nonneg this (le_of_lt hpE)
      linarith
    have hMle : (M : ℚ) ≤ (2 : ℚ) ^ (53 : Nat) := by
      have : M ≤ 2 ^ 53 := by
        rw [abs_of_nonneg (le_of_lt hMpos)] at hM; exact hM
      exact_mod_cast this
    have hEge : -53 ≤ E := by
      by_contra hc
      have hE54 : E ≤ -54 := by omega
      have h3 : (2 : ℚ) ^ E ≤ (2 : ℚ) ^ (-54 : Int) := zpow_le_zpow_right₀ (by norm_num) hE54
      have h4 : (M : ℚ) * (2 : ℚ) ^ E ≤ (2 : ℚ) ^ (53 : Nat) * (2 : ℚ) ^ (-54 : Int) :=
        mul_le_mul hMle h3 (le_of_lt hpE) (by positivity)
      have h5 : (2 : ℚ) ^ (53 : Nat) * (2 : ℚ) ^ (-54 : Int) = 1 / 2 := by
        norm_num
      rw [h5, ← hrep] at h4
      linarith
    obtain ⟨k, hk⟩ : ∃ k : Nat, E + 53 = k := ⟨(E + 53).toNat, by omega⟩
    have hEeq : E = (k : Int) - 53 := by omega
    have hwK : w = ((M * 2 ^ k : Int) : ℚ) / (2 : ℚ) ^ 53 := by
      rw [hrep, hEeq, zpow_sub₀ (by norm_num : (2 : ℚ) ≠ 0), zpow_natCast, zpow_ofNat]
      push_cast
      ring
    have hsub : (j : ℚ) - w = ((j * 2 ^ 53 - M * 2 ^ k : Int) : ℚ) / (2 : ℚ) ^ 53 := by
      rw [hwK]
      push_cast
      field_simp
      left
      norm_num
    have hp53 : (0 : ℚ) < (2 : ℚ) ^ 53 := by positivity
    have hlo : -((2 : ℚ) ^ 53) < ((j * 2 ^ 53 - M * 2 ^ k : Int) : ℚ) := by
      have : -1 < (j : ℚ) - w := by linarith
      rw [hsub, lt_div_iff₀ hp53] at this
      linarith
    have hhi : ((j * 2 ^ 53 - M * 2 ^ k : Int) : ℚ) < 0 := by
      have : (j : ℚ) - w < 0 := by linarith
      rw [hsub, div_lt_iff₀ hp53] at this
      linarith
    have habs : |j * 2 ^ 53 - M * 2 ^ k| < 2 ^ 53 := by
      have h1' : -(2 ^ 53 : Int) < j * 2 ^ 53 - M * 2 ^ k := by exact_mod_cast hlo
      have h2' : j * 2 ^ 53 - M * 2 ^ k < 0 := by exact_mod_cast hhi
      rw [abs_lt]
      constructor <;> omega
    have hex := toDouble_exact (j * 2 ^ 53 - M * 2 ^ k) 53 habs (by omega)
    rw [hsub, hex, ← hsub]
    linarith

theorem truncate_sub_bounds (w : ℚ) (hd : toDouble w = w) (hw : 0 < w) (j : Int)
    (hj : j < 2 ^ 31) (hfit : truncate w ≤ j) :
    0 ≤ truncate (toDouble ((j : ℚ) - w))
      ∧ truncate (toDouble ((j : ℚ) - w)) ≤ j - truncate w := by
  have hcw := truncate_nonneg w (le_of_lt hw)
  have hj0 : 0 ≤ j := by omega
  rw [truncate_of_pos w hw] at hfit hcw ⊢
  have hfl : ((⌊w⌋ : Int) : ℚ) ≤ w := Int.floor_le w
  have hlt : w < ((⌊w⌋ : Int) : ℚ) + 1 := Int.lt_floor_add_one w
  constructor
  · apply truncate_nonneg_of_gt
    by_cases hs : 0 ≤ (j : ℚ) - w
    · have := toDouble_nonneg _ hs
      linarith
    · have hjw : (j : ℚ) < w := by linarith
      have hjeq : j = ⌊w⌋ := by
        have : (j : ℚ) < ((⌊w⌋ : Int) : ℚ) + 1 := by linarith
        have : j < ⌊w⌋ + 1 := by exact_mod_cast this
        omega
      exact toDouble_sub_gt_neg_one w hd j hj0 hj hjw (by rw [hjeq]; exact hlt)
  · apply truncate_le_of_le
    have hk : |j - ⌊w⌋| < 2 ^ 53 := by
      rw [abs_of_nonneg (by omega)]
      omega
    have hm := toDouble_mono ((j : ℚ) - w) ((j - ⌊w⌋ : Int) : ℚ) (by push_cast; linarith)
    rwa [toDouble_intCast _ hk] at hm


theorem truncate_of_pos_or_zero (w : ℚ) (hw : 0 ≤ w) : truncate w = ⌊w⌋ := by
  simp [truncate, hw]
/-! ## Sums -/

theorem sum_food_vector_foldl (foods : FoodVector) (a b : ℚ) :
    foods.foldl
      (fun (acc : ℚ × ℚ) (food : FoodItem) =>
        (toDouble (acc.1 + food.weight), toDouble (acc.2 + food.foodCalories))) (a, b)
      = ((foods.map FoodItem.weight).foldl (fun acc x => toDouble (acc + x)) a,
         (foods.map FoodItem.foodCalories).foldl (fun acc x => toDouble (acc + x)) b) := by
  induction foods generalizing a b with
  | nil => simp
  | cons x xs ih => simp [List.foldl_cons, ih]

theorem totalWeight_eq (foods : FoodVector) :
    totalWeight foods = fsum (foods.map FoodItem.weight) := by
  unfold totalWeight sum_food_vector fsum
  rw [sum_food_vector_foldl]

theorem totalCalories_eq (foods : FoodVector) :
    totalCalories foods = fsum (foods.map FoodItem.foodCalories) := by
  unfold totalCalories sum_food_vector fsum
  rw [sum_food_vector_foldl]

theorem fsum_nil : fsum [] = 0 := rfl

theorem fsum_concat (xs : List ℚ) (x : ℚ) : fsum (xs ++ [x]) = toDouble (fsum xs + x) := by
  simp [fsum, List.foldl_append]

theorem fsum_nonneg (xs : List ℚ) (h : ∀ x ∈ xs, 0 ≤ x) : 0 ≤ fsum xs := by
  induction xs using List.reverseRecOn with
  | nil => simp [fsum_nil]
  | append_singleton xs x ih =>
    rw [fsum_concat]
    apply toDouble_nonneg
    have h1 := ih (fun y hy => h y (List.mem_append_left _ hy))
    have h2 := h x (by simp)
    linarith

/-- A member that is a double is a lower bound of the rounded sum of non-negative
terms. -/
theorem le_fsum_of_mem (xs : List ℚ) (h : ∀ x ∈ xs, 0 ≤ x) (y : ℚ) (hy : y ∈ xs)
    (hd : toDouble y = y) : y ≤ fsum xs := by
  induction xs using List.reverseRecOn with
  | nil => simp at hy
  | append_singleton xs x ih =>
    rw [fsum_concat]
    have hx0 := h x (by simp)
    have hs0 := fsum_nonneg xs (fun z hz => h z (List.mem_append_left _ hz))
    rw [← hd]
    apply toDouble_mono
    rcases List.mem_append.1 hy with hm | hm
    · have := ih (fun z hz => h z (List.mem_append_left _ hz)) hm
      linarith
    · rw [List.mem_singleton.1 hm]
      linarith

theorem sum_grid (xs : List ℚ) (s : Nat) (hg : ∀ x ∈ xs, ∃ m : Nat, x = (m : ℚ) / (2 : ℚ) ^ s) :
    ∃ m : Nat, xs.sum = (m : ℚ) / (2 : ℚ) ^ s := by
  induction xs with
  | nil => exact ⟨0, by simp⟩
  | cons x xs ih =>
    obtain ⟨a, ha⟩ := hg x (List.mem_cons_self _ _)
    obtain ⟨b, hb⟩ := ih (fun y hy => hg y (List.mem_cons_of_mem _ hy))
    refine ⟨a + b, ?_⟩
    rw [List.sum_cons, ha, hb]
    push_cast
    ring

theorem sum_nonneg_of_grid (xs : List ℚ) (s : Nat)
    (hg : ∀ x ∈ xs, ∃ m : Nat, x = (m : ℚ) / (2 : ℚ) ^ s) : 0 ≤ xs.sum := by
  obtain ⟨m, hm⟩ := sum_grid xs s hg
  rw [hm]
  positivity

/-- On a grid of multiples of `2^(-s)` with a total below `2^53` units, the rounded
sum is the exact sum. -/
theorem fsum_eq_sum (xs : List ℚ) (s : Nat) (hs : s ≤ 1074)
    (hg : ∀ x ∈ xs, ∃ m : Nat, x = (m : ℚ) / (2 : ℚ) ^ s)
    (hb : xs.sum * (2 : ℚ) ^ s < (2 : ℚ) ^ 53) : fsum xs = xs.sum := by
  induction xs using List.reverseRecOn with
  | nil => simp [fsum_nil]
  | append_singleton xs x ih =>
    have hgx : ∀ y ∈ xs, ∃ m : Nat, y = (m : ℚ) / (2 : ℚ) ^ s :=
      fun y hy => hg y (List.mem_append_left _ hy)
    obtain ⟨a, ha⟩ := hg x (by simp)
    have hx0 : 0 ≤ x := by rw [ha]; positivity
    have hp : (0 : ℚ) < (2 : ℚ) ^ s := by positivity
    rw [List.sum_append, List.sum_singleton] at hb ⊢
    have hb' : xs.sum * (2 : ℚ) ^ s < (2 : ℚ) ^ 53 := by
      have : xs.sum * (2 : ℚ) ^ s ≤ (xs.sum + x) * (2 : ℚ) ^ s :=
        mul_le_mul_of_nonneg_right (by linarith) (le_of_lt hp)
      linarith
    rw [fsum_concat, ih hgx hb']
    obtain ⟨m, hm⟩ := sum_grid (xs ++ [x]) s hg
    rw [List.sum_append, List.sum_singleton] at hm
    rw [hm] at hb ⊢
    have hm53 : m < 2 ^ 53 := by
      have : (m : ℚ) / (2 : ℚ) ^ s * (2 : ℚ) ^ s = m := by field_simp
      rw [this] at hb
      exact_mod_cast hb
    exact toDouble_exact_nat m s hm53 hs

theorem totalCalories_nil : totalCalories ([] : FoodVector) = 0 := rfl

theorem totalWeight_nil : totalWeight ([] : FoodVector) = 0 := rfl

theorem totalCalories_concat (xs : FoodVector) (x : FoodItem) :
    totalCalories (xs ++ [x]) = toDouble (totalCalories xs + x.foodCalories) := by
  rw [totalCalories_eq, totalCalories_eq, List.map_append, List.map_singleton, fsum_concat]

theorem totalCalories_nonneg (foods : FoodVector)
    (h : ∀ f ∈ foods, 0 ≤ f.foodCalories) : 0 ≤ totalCalories foods := by
  rw [totalCalories_eq]
  apply fsum_nonneg
  intro x hx
  obtain ⟨f, hf, rfl⟩ := List.mem_map.1 hx
  exact h f hf

theorem totalWeight_nonneg (foods : FoodVector)
    (h : ∀ f ∈ foods, 0 < f.weight) : 0 ≤ totalWeight foods := by
  rw [totalWeight_eq]
  apply fsum_nonneg
  intro x hx
  obtain ⟨f, hf, rfl⟩ := List.mem_map.1 hx
  exact le_of_lt (h f hf)

/-! ## Candidates and sub-sequences -/

theorem candidate_cons (x : FoodItem) (xs : FoodVector) (n i : Nat) :
    candidate (x :: xs) (n + 1) i
      = (if i % 2 = 1 then [x] else []) ++ candidate xs n (i / 2) := by
  unfold candidate
  rw [List.range_succ_eq_map, List.filterMap_cons, List.filterMap_map]
  have h0 : (i >>> 0) &&& 1 = i % 2 := by simp [Nat.and_one_is_mod]
  have hs : ∀ j, (i >>> (j + 1)) = (i / 2) >>> j := by
    intro j
    simp [Nat.shiftRight_eq_div_pow, Nat.div_div_eq_div_mul, pow_succ']
  have hf : (fun j => if (i >>> j) &&& 1 = 1 then (x :: xs)[j]? else none) ∘ Nat.succ
      = fun j => if ((i / 2) >>> j) &&& 1 = 1 then xs[j]? else none := by
    funext j
    simp [hs]
  rw [hf, h0]
  by_cases hb : i % 2 = 1 <;> simp [hb]

theorem candidate_nil (n i : Nat) : candidate [] n i = [] := by
  simp [candidate]

theorem candidate_sublist (foods : FoodVector) (i : Nat) :
    (candidate foods foods.length i).Sublist foods := by
  induction foods generalizing i with
  | nil => simp [candidate_nil]
  | cons x xs ih =>
    rw [List.length_cons, candidate_cons]
    by_cases hb : i % 2 = 1
    · simpa [hb] using (ih (i / 2)).cons₂ x
    · simpa [hb] using (ih (i / 2)).cons x

theorem sublist_is_candidate (foods s : FoodVector) (h : s.Sublist foods) :
    ∃ i, i < 2 ^ foods.length ∧ candidate foods foods.length i = s := by
  induction h with
  | slnil => exact ⟨0, by simp, by simp [candidate_nil]⟩
  | @cons l₁ l₂ a _ ih =>
    obtain ⟨i, hi, hc⟩ := ih
    refine ⟨2 * i, ?_, ?_⟩
    · rw [List.length_cons, pow_succ]; omega
    · rw [List.length_cons, candidate_cons]
      simp [hc]
  | @cons₂ l₁ l₂ a _ ih =>
    obtain ⟨i, hi, hc⟩ := ih
    refine ⟨2 * i + 1, ?_, ?_⟩
    · rw [List.length_cons, pow_succ]; omega
    · rw [List.length_cons, candidate_cons]
      have h1 : (2 * i + 1) % 2 = 1 := by omega
      have h2 : (2 * i + 1) / 2 = i := by omega
      simp [h1, h2, hc]

/-! ## Exhaustive search: loop invariant -/

theorem exhaustive_loop_succ (foods : FoodVector) (W : ℚ) (k : Nat) :
    exhaustive_loop foods W (k + 1)
      = exhaustive_step foods W (exhaustive_loop foods W k) k := by
  simp [exhaustive_loop, List.range_succ, List.foldl_append]

theorem candidate_calories_nonneg (foods : FoodVector)
    (hv : ∀ f ∈ foods, 0 ≤ f.foodCalories) (i : Nat) :
    0 ≤ totalCalories (candidate foods foods.length i) :=
  totalCalories_nonneg _ (fun f hf => hv f ((candidate_sublist foods i).subset hf))

theorem exhaustive_step_inv (foods : FoodVector) (W : ℚ)
    (hv : ∀ f ∈ foods, 0 ≤ f.foodCalories) (k : Nat) (st : ExhState)
    (h : ExhInv foods W k st) : ExhInv foods W (k + 1) (exhaustive_step foods W st k) := by
  obtain ⟨hcal, hsrc, hopt⟩ := h
  have hnn := candidate_calories_nonneg foods hv k
  unfold exhaustive_step
  simp only []
  change ExhInv foods W (k + 1)
    (if totalWeight (candidate foods foods.length k) ≤ W then
      if st.best.isEmpty ∨ totalCalories (candidate foods foods.length k) > st.bestTotalCalories
      then { best := candidate foods foods.length k,
             bestTotalCalories := totalCalories (candidate foods foods.length k) }
      else st
    else st)
  by_cases hfeas : totalWeight (candidate foods foods.length k) ≤ W
  · rw [if_pos hfeas]
    by_cases hrep : st.best.isEmpty ∨
        totalCalories (candidate foods foods.length k) > st.bestTotalCalories
    · rw [if_pos hrep]
      refine ⟨rfl, Or.inr ⟨k, Nat.lt_succ_self k, hfeas, rfl⟩, ?_⟩
      intro m hm hmf
      rcases Nat.lt_succ_iff_lt_or_eq.1 hm with hlt | heq
      · have h1 := hopt m hlt hmf
        rcases hrep with hemp | hgt
        · have : st.best = [] := List.isEmpty_iff.1 hemp
          rw [this] at h1
          rw [totalCalories_nil] at h1
          exact le_trans h1 hnn
        · rw [hcal] at hgt
          exact le_trans h1 (le_of_lt hgt)
      · subst heq; exact le_refl _
    · rw [if_neg hrep]
      refine ⟨hcal, ?_, ?_⟩
      · rcases hsrc with h0 | ⟨m, hm, hmf, hbest⟩
        · exact Or.inl h0
        · exact Or.inr ⟨m, Nat.lt_succ_of_lt hm, hmf, hbest⟩
      · intro m hm hmf
        rcases Nat.lt_succ_iff_lt_or_eq.1 hm with hlt | heq
        · exact hopt m hlt hmf
        · subst heq
          have := not_or.1 hrep
          rw [← hcal]
          exact not_lt.1 this.2
  · rw [if_neg hfeas]
    refine ⟨hcal, ?_, ?_⟩
    · rcases hsrc with h0 | ⟨m, hm, hmf, hbest⟩
      · exact Or.inl h0
      · exact Or.inr ⟨m, Nat.lt_succ_of_lt hm, hmf, hbest⟩
    · intro m hm hmf
      rcases Nat.lt_succ_iff_lt_or_eq.1 hm with hlt | heq
      · exact hopt m hlt hmf
      · subst heq; exact absurd hmf hfeas

theorem exhaustive_loop_inv (foods : FoodVector) (W : ℚ)
    (hv : ∀ f ∈ foods, 0 ≤ f.foodCalories) (k : Nat) :
    ExhInv foods W k (exhaustive_loop foods W k) := by
  induction k with
  | zero =>
    refine ⟨?_, Or.inl rfl, ?_⟩
    · simp [exhaustive_loop, totalCalories_nil]
    · intro m hm; exact absurd hm (Nat.not_lt_zero m)
  | succ k ih =>
    rw [exhaustive_loop_succ]
    exact exhaustive_step_inv foods W hv k _ ih

theorem takeWhile_range (p : Nat → Bool) (N : Nat) :
    (List.range N).takeWhile p = List.range ((List.range N).takeWhile p).length := by
  have hpre : ((List.range N).takeWhile p).IsPrefix (List.range N) := List.takeWhile_prefix p
  have hlen : ((List.range N).takeWhile p).length ≤ N := by
    have := hpre.length_le
    simpa using this
  have h1 := List.prefix_iff_eq_take.1 hpre
  rw [List.take_range, Nat.min_eq_left hlen] at h1
  exact h1

theorem visitedMasks_eq_range (n : Nat) :
    visitedMasks n = List.range (visitedMasks n).length :=
  takeWhile_range (loopTest n) (2 ^ n)

theorem visitedMasks_length_le (n : Nat) : (visitedMasks n).length ≤ 2 ^ n := by
  have := (List.takeWhile_prefix (loopTest n) (l := List.range (2 ^ n))).length_le
  simpa [visitedMasks] using this

theorem takeWhile_range_all (p : Nat → Bool) (N : Nat) (h : ∀ i, i < N → p i = true) :
    (List.range N).takeWhile p = List.range N := by
  rw [List.takeWhile_eq_self_iff]
  intro i hi
  exact h i (List.mem_range.1 hi)

/-- Up to 53 items every mask is visited: the counter converts exactly. -/
theorem visitedMasks_small (n : Nat) (hn : n < 54) : visitedMasks n = List.range (2 ^ n) := by
  apply takeWhile_range_all
  intro i hi
  have h53 : 2 ^ n ≤ 2 ^ 53 := Nat.pow_le_pow_right (by omega) (by omega)
  unfold loopTest
  rw [decide_eq_true_eq, toDouble_natCast i (by omega)]
  exact_mod_cast hi

theorem exhaustive_eq_loop (foods : FoodVector) (W : ℚ) :
    exhaustive_max_calories foods W
      = (exhaustive_loop foods W (visitedMasks foods.length).length).best := by
  unfold exhaustive_max_calories exhaustive_loop
  rw [← visitedMasks_eq_range]

/-- Summary of the exhaustive search for fewer than 54 items: the result is a feasible
sub-sequence of the catalog and no feasible sub-sequence has more calories, weights
and calories being the totals computed by `sum_food_vector`. -/
theorem exhaustive_spec (foods : FoodVector) (W : ℚ) (hn : foods.length < 54)
    (hv : ∀ f ∈ foods, 0 ≤ f.foodCalories) (hW : 0 ≤ W) :
    (exhaustive_max_calories foods W).Sublist foods
      ∧ totalWeight (exhaustive_max_calories foods W) ≤ W
      ∧ ∀ s : FoodVector, s.Sublist foods → totalWeight s ≤ W →
          totalCalories s ≤ totalCalories (exhaustive_max_calories foods W) := by
  obtain ⟨_, hsrc, hopt⟩ := exhaustive_loop_inv foods W hv (2 ^ foods.length)
  rw [exhaustive_eq_loop, visitedMasks_small _ hn, List.length_range]
  refine ⟨?_, ?_, ?_⟩
  · rcases hsrc with h0 | ⟨m, _, _, hbest⟩
    · rw [h0]; exact List.nil_sublist _
    · rw [hbest]; exact candidate_sublist foods m
  · rcases hsrc with h0 | ⟨m, _, hmf, hbest⟩
    · rw [h0, totalWeight_nil]; exact hW
    · rw [hbest]; exact hmf
  · intro s hs hsw
    obtain ⟨i, hi, hc⟩ := sublist_is_candidate foods s hs
    have := hopt i hi (by rw [hc]; exact hsw)
    rwa [hc] at this

/-! ## Table accesses -/

theorem Table.read_isSome (T : Table) (r c : Nat) (hd : T.Dims r c) (i j : Int)
    (hi0 : 0 ≤ i) (hi : i < r) (hj0 : 0 ≤ j) (hj : j < c) :
    ∃ v, T.read i j = some v := by
  obtain ⟨hlen, hrows⟩ := hd
  have hi' : i.toNat < T.length := by omega
  have hrow : (T[i.toNat]).length = c := hrows _ (List.getElem_mem _)
  have hj' : j.toNat < (T[i.toNat]).length := by omega
  refine ⟨(T[i.toNat])[j.toNat], ?_⟩
  unfold Table.read
  rw [if_neg (by omega), List.getElem?_eq_getElem hi']
  simp [List.getElem?_eq_getElem hj']

theorem Table.write_spec (T T' : Table) (r c : Nat) (hd : T.Dims r c) (i j : Int) (v : ℚ)
    (h : T.write i j v = some T') :
    T'.Dims r c ∧ T'.read i j = some v ∧
      ∀ i' j', (i' ≠ i ∨ j' ≠ j) → T'.read i' j' = T.read i' j' := by
  obtain ⟨hlen, hrows⟩ := hd
  unfold Table.write at h
  by_cases hneg : i < 0 ∨ j < 0
  · simp [hneg] at h
  · rw [if_neg hneg] at h
    cases hrow : T[i.toNat]? with
    | none => simp [hrow] at h
    | some row =>
      simp only [hrow] at h
      by_cases hjl : j.toNat < row.length
      · rw [if_pos hjl] at h
        have hT' : T' = T.set i.toNat (row.set j.toNat v) := (Option.some.inj h).symm
        have hil : i.toNat < T.length := by
          by_contra hc
          rw [List.getElem?_eq_none (by omega)] at hrow
          exact Option.noConfusion hrow
        subst hT'
        refine ⟨⟨by simp [hlen], ?_⟩, ?_, ?_⟩
        · intro row' hrow'
          rcases List.mem_or_eq_of_mem_set hrow' with hm | he
          · exact hrows _ hm
          · rw [he, List.length_set]
            exact hrows _ (List.getElem?_mem hrow)
        · unfold Table.read
          rw [if_neg hneg]
          simp [List.getElem?_set, hil, hjl]
        · intro i' j' hne
          unfold Table.read
          by_cases hneg' : i' < 0 ∨ j' < 0
          · simp [hneg']
          · rw [if_neg hneg', if_neg hneg']
            by_cases hii : i.toNat = i'.toNat
            · have hjj : j.toNat ≠ j'.toNat := by omega
              rw [List.getElem?_set, if_pos hii]
              simp only [hil]
              rw [← hii, hrow]
              simp [List.getElem?_set, hjj]
            · rw [List.getElem?_set, if_neg hii]
      · rw [if_neg hjl] at h
        exact Option.noConfusion h

theorem Table.write_isSome (T : Table) (r c : Nat) (hd : T.Dims r c) (i j : Int) (v : ℚ)
    (hi0 : 0 ≤ i) (hi : i < r) (hj0 : 0 ≤ j) (hj : j < c) :
    ∃ T', T.write i j v = some T' := by
  obtain ⟨hlen, hrows⟩ := hd
  have hi' : i.toNat < T.length := by omega
  have hrow : (T[i.toNat]).length = c := hrows _ (List.getElem_mem _)
  have hj' : j.toNat < (T[i.toNat]).length := by omega
  unfold Table.write
  rw [if_neg (by omega), List.getElem?_eq_getElem hi']
  simp [hj']

/-! ## Counted loops -/

theorem loopFrom_inv {σ : Type} (body : Int → σ → Option σ) (Inv : Int → σ → Prop)
    (k : Nat) (lo : Int) (s : σ) (h0 : Inv lo s)
    (hstep : ∀ x s, lo ≤ x → x < lo + k → Inv x s →
      ∃ s', body x s = some s' ∧ Inv (x + 1) s') :
    ∃ s', loopFrom body k lo s = some s' ∧ Inv (lo + k) s' := by
  induction k generalizing lo s with
  | zero => exact ⟨s, rfl, by simpa using h0⟩
  | succ k ih =>
    obtain ⟨s1, hb, hinv⟩ := hstep lo s (le_refl _) (by push_cast; omega) h0
    obtain ⟨s2, hl, hinv2⟩ := ih (lo + 1) s1 hinv (by
      intro x s hx hx'
      exact hstep x s (by omega) (by push_cast; omega))
    refine ⟨s2, ?_, ?_⟩
    · simp [loopFrom, hb, hl]
    · have : lo + ((k + 1 : Nat) : Int) = lo + 1 + k := by push_cast; ring
      rw [this]; exact hinv2

theorem forLoop_inv {σ : Type} (body : Int → σ → Option σ) (Inv : Int → σ → Prop)
    (lo hi : Int) (s : σ) (hle : lo ≤ hi + 1) (h0 : Inv lo s)
    (hstep : ∀ x s, lo ≤ x → x ≤ hi → Inv x s →
      ∃ s', body x s = some s' ∧ Inv (x + 1) s') :
    ∃ s', forLoop lo hi body s = some s' ∧ Inv (hi + 1) s' := by
  have hk : lo + ((hi + 1 - lo).toNat : Int) = hi + 1 := by
    rw [Int.toNat_of_nonneg (by omega)]; ring
  obtain ⟨s', hs, hinv⟩ := loopFrom_inv body Inv (hi + 1 - lo).toNat lo s h0 (by
    intro x s hx hx'
    exact hstep x s hx (by omega))
  exact ⟨s', hs, by rwa [hk] at hinv⟩

theorem forLoop_empty {σ : Type} (body : Int → σ → Option σ) (lo hi : Int) (s : σ)
    (h : hi < lo) : forLoop lo hi body s = some s := by
  have : (hi + 1 - lo).toNat = 0 := by omega
  simp [forLoop, this, loopFrom]

/-! ## Initialisation loops -/

theorem newTable_eq (n W : Nat) (hn : (n : Int) + 1 ≤ INT_MAX) (hW : (W : Int) + 1 ≤ INT_MAX) :
    newTable n W = some (List.replicate (n + 1) (List.replicate (W + 1) 0)) := by
  unfold newTable
  rw [checkInt_of_bounds _ (by unfold INT_MIN; omega) hn,
    checkInt_of_bounds _ (by unfold INT_MIN; omega) hW]
  simp only [Option.some_bind]
  rw [if_neg (by omega)]
  have h1 : ((n : Int) + 1).toNat = n + 1 := by omega
  have h2 : ((W : Int) + 1).toNat = W + 1 := by omega
  rw [h1, h2]

theorem newTable_dims (n W : Nat) (hn : (n : Int) + 1 ≤ INT_MAX) (hW : (W : Int) + 1 ≤ INT_MAX) :
    ∃ T, newTable n W = some T ∧ T.Dims (n + 1) (W + 1) := by
  refine ⟨_, newTable_eq n W hn hW, ?_⟩
  refine ⟨by simp, ?_⟩
  intro row hrow
  rw [List.eq_of_mem_replicate hrow]
  simp

theorem initNegative_dims (n W : Nat) (T : Table) (hd : T.Dims (n + 1) (W + 1)) :
    ∃ T', initNegative n W T = some T' ∧ T'.Dims (n + 1) (W + 1) := by
  unfold initNegative
  refine forLoop_inv _ (fun _ T => T.Dims (n + 1) (W + 1)) 1 n T (by omega) hd ?_
  intro x T1 hx1 hxn hd1
  refine forLoop_inv _ (fun _ T => T.Dims (n + 1) (W + 1)) 1 W T1 (by omega) hd1 ?_
  intro j T2 hj1 hjW hd2
  obtain ⟨T3, h3⟩ := Table.write_isSome T2 _ _ hd2 x j (-1000)
    (by omega) (by push_cast; omega) (by omega) (by push_cast; omega)
  exact ⟨T3, h3, (Table.write_spec T2 T3 _ _ hd2 x j _ h3).1⟩

theorem initRowZero_spec (n W : Nat) (T : Table) (hd : T.Dims (n + 1) (W + 1)) :
    ∃ T', initRowZero W T = some T' ∧ T'.Dims (n + 1) (W + 1) ∧
      ∀ j : Int, 0 ≤ j → j ≤ W → T'.read 0 j = some 0 := by
  unfold initRowZero
  obtain ⟨T', h, hd', hz⟩ := forLoop_inv (fun j T => T.write 0 j 0)
    (fun x T => T.Dims (n + 1) (W + 1) ∧ ∀ j : Int, 0 ≤ j → j < x → T.read 0 j = some 0)
    0 W T (by omega) ⟨hd, by intro j h0 h1; omega⟩ (by
      intro x T1 hx0 hxW ⟨hd1, hz1⟩
      obtain ⟨T2, h2⟩ := Table.write_isSome T1 _ _ hd1 0 x 0
        (by omega) (by push_cast; omega) hx0 (by push_cast; omega)
      obtain ⟨hd2, hr, hother⟩ := Table.write_spec T1 T2 _ _ hd1 0 x 0 h2
      refine ⟨T2, h2, hd2, ?_⟩
      intro j hj0 hj
      by_cases hjx : j = x
      · rw [hjx]; exact hr
      · rw [hother 0 j (Or.inr hjx)]
        exact hz1 j hj0 (by omega))
  exact ⟨T', h, hd', fun j hj0 hj => hz j hj0 (by omega)⟩

theorem initColZero_spec (n W : Nat) (T : Table) (hd : T.Dims (n + 1) (W + 1))
    (hz : ∀ j : Int, 0 ≤ j → j ≤ W → T.read 0 j = some 0) :
    ∃ T', initColZero n T = some T' ∧ T'.Dims (n + 1) (W + 1) ∧
      ∀ j : Int, 0 ≤ j → j ≤ W → T'.read 0 j = some 0 := by
  unfold initColZero
  obtain ⟨T', h, hd', hz'⟩ := forLoop_inv (fun i T => T.write i 0 0)
    (fun _ T => T.Dims (n + 1) (W + 1) ∧ ∀ j : Int, 0 ≤ j → j ≤ W → T.read 0 j = some 0)
    0 n T (by omega) ⟨hd, hz⟩ (by
      intro x T1 hx0 hxn ⟨hd1, hz1⟩
      obtain ⟨T2, h2⟩ := Table.write_isSome T1 _ _ hd1 x 0 0
        hx0 (by push_cast; omega) (le_refl _) (by push_cast; omega)
      obtain ⟨hd2, hr, hother⟩ := Table.write_spec T1 T2 _ _ hd1 x 0 0 h2
      refine ⟨T2, h2, hd2, ?_⟩
      intro j hj0 hj
      by_cases hc : (0 : Int) = x ∧ j = 0
      · obtain ⟨hc1, hc2⟩ := hc
        subst hc1; subst hc2; exact hr
      · rw [hother 0 j (by omega)]
        exact hz1 j hj0 hj)
  exact ⟨T', h, hd', hz'⟩

/-! ## The fill loops compute the recurrence -/

theorem tableSpec_succ (foods : FoodVector) (m : Nat) (item : FoodItem)
    (h : foods[m]? = some item) (c : Int) :
    tableSpec foods (m + 1) c
      = max (tableSpec foods m c)
          (if c ≥ truncate item.weight then
            toDouble (item.foodCalories + tableSpec foods m (c - truncate item.weight))
          else 0) := by
  rw [tableSpec]
  simp only [h]

theorem itemAt_natCast (foods : FoodVector) (m : Nat) : itemAt foods (m : Int) = foods[m]? := by
  unfold itemAt
  rw [if_neg (by omega)]
  simp

theorem fillCell_spec (foods : FoodVector) (n W : Nat)
    (hw : ∀ f ∈ foods, 0 < f.weight ∧ f.weight < 2147483648) (hn : foods.length = n)
    (hWmax : (W : Int) + 1 ≤ INT_MAX)
    (m : Nat) (hm : m < n) (j : Int) (hj0 : 0 ≤ j) (hjW : j ≤ W) (T : Table)
    (hd : T.Dims (n + 1) (W + 1)) (hrows : RowsOK foods W T ((m : Int) + 1)) :
    ∃ T', fillCell foods ((m : Int) + 1) j T = some T' ∧ T'.Dims (n + 1) (W + 1) ∧
      T'.read ((m : Int) + 1) j = some (tableSpec foods (m + 1) j) ∧
      ∀ i' j', (i' ≠ (m : Int) + 1 ∨ j' ≠ j) → T'.read i' j' = T.read i' j' := by
  have hlt : m < foods.length := by omega
  have hitem : foods[m]? = some foods[m] := List.getElem?_eq_getElem hlt
  have hwm := hw _ (List.getElem_mem hlt)
  obtain ⟨hconv, hcw, _⟩ := toInt_weight (foods[m]).weight hwm.1 hwm.2
  have htop : T.read (m : Int) j = some (tableSpec foods m j) :=
    hrows m (by omega) j hj0 hjW
  unfold fillCell
  rw [add_sub_cancel_right, htop, itemAt_natCast, hitem]
  simp only [Option.some_bind]
  rw [hconv]
  simp only [Option.some_bind]
  rw [tableSpec_succ foods m _ hitem j]
  by_cases hfit : j ≥ truncate (foods[m]).weight
  · rw [if_pos hfit, if_pos hfit,
      checkInt_of_bounds (j - truncate (foods[m]).weight) (by unfold INT_MIN; omega) (by omega)]
    simp only [Option.some_bind]
    have hrem : T.read (m : Int) (j - truncate (foods[m]).weight)
        = some (tableSpec foods m (j - truncate (foods[m]).weight)) :=
      hrows m (by omega) _ (by omega) (by omega)
    rw [hrem]
    simp only [Option.some_bind]
    obtain ⟨T', h'⟩ := Table.write_isSome T _ _ hd ((m : Int) + 1) j
      (max (tableSpec foods m j)
        (toDouble ((foods[m]).foodCalories + tableSpec foods m (j - truncate (foods[m]).weight))))
      (by omega) (by push_cast; omega) hj0 (by push_cast; omega)
    obtain ⟨hd', hr, hother⟩ := Table.write_spec T T' _ _ hd _ _ _ h'
    exact ⟨T', h', hd', hr, hother⟩
  · rw [if_neg hfit, if_neg hfit]
    obtain ⟨T', h'⟩ := Table.write_isSome T _ _ hd ((m : Int) + 1) j
      (max (tableSpec foods m j) 0)
      (by omega) (by push_cast; omega) hj0 (by push_cast; omega)
    obtain ⟨hd', hr, hother⟩ := Table.write_spec T T' _ _ hd _ _ _ h'
    exact ⟨T', h', hd', hr, hother⟩

theorem fillRow_spec (foods : FoodVector) (n W : Nat)
    (hw : ∀ f ∈ foods, 0 < f.weight ∧ f.weight < 2147483648) (hn : foods.length = n)
    (hWmax : (W : Int) + 1 ≤ INT_MAX)
    (m : Nat) (hm : m < n) (T : Table)
    (hd : T.Dims (n + 1) (W + 1)) (hrows : RowsOK foods W T ((m : Int) + 1)) :
    ∃ T', forLoop 0 W (fun j T => fillCell foods ((m : Int) + 1) j T) T = some T' ∧
      T'.Dims (n + 1) (W + 1) ∧ RowsOK foods W T' ((m : Int) + 1 + 1) := by
  obtain ⟨T', h, hd', hrows', hrow⟩ := forLoop_inv
    (fun j T => fillCell foods ((m : Int) + 1) j T)
    (fun x T => T.Dims (n + 1) (W + 1) ∧ RowsOK foods W T ((m : Int) + 1) ∧
      ∀ j' : Int, 0 ≤ j' → j' < x →
        T.read ((m : Int) + 1) j' = some (tableSpec foods (m + 1) j'))
    0 W T (by omega) ⟨hd, hrows, by intro j' h0 h1; omega⟩ (by
      intro x T1 hx0 hxW ⟨hd1, hrows1, hrow1⟩
      obtain ⟨T2, h2, hd2, hr, hother⟩ :=
        fillCell_spec foods n W hw hn hWmax m hm x hx0 hxW T1 hd1 hrows1
      refine ⟨T2, h2, hd2, ?_, ?_⟩
      · intro m' hm' j hj0 hjW
        rw [hother m' j (Or.inl (by omega))]
        exact hrows1 m' hm' j hj0 hjW
      · intro j' hj0 hj'
        by_cases hjx : j' = x
        · rw [hjx]; exact hr
        · rw [hother _ j' (Or.inr hjx)]
          exact hrow1 j' hj0 (by omega))
  refine ⟨T', h, hd', ?_⟩
  intro m' hm' j hj0 hjW
  by_cases hlt : (m' : Int) < (m : Int) + 1
  · exact hrows' m' hlt j hj0 hjW
  · have hmm : m' = m + 1 := by omega
    subst hmm
    have := hrow j hj0 (by omega)
    push_cast
    exact this

theorem fillTable_spec (foods : FoodVector) (n W : Nat)
    (hw : ∀ f ∈ foods, 0 < f.weight ∧ f.weight < 2147483648) (hn : foods.length = n)
    (hWmax : (W : Int) + 1 ≤ INT_MAX) (T : Table)
    (hd : T.Dims (n + 1) (W + 1)) (hrows : RowsOK foods W T 1) :
    ∃ T', fillTable foods n W T = some T' ∧
      T'.Dims (n + 1) (W + 1) ∧ RowsOK foods W T' ((n : Int) + 1) := by
  unfold fillTable
  refine forLoop_inv _ (fun x T => T.Dims (n + 1) (W + 1) ∧ RowsOK foods W T x)
    1 n T (by omega) ⟨hd, hrows⟩ ?_
  intro x T1 hx1 hxn ⟨hd1, hrows1⟩
  obtain ⟨m, rfl⟩ : ∃ m : Nat, x = (m : Int) + 1 := ⟨(x - 1).toNat, by omega⟩
  obtain ⟨T2, h2, hd2, hrows2⟩ :=
    fillRow_spec foods n W hw hn hWmax m (by omega) T1 hd1 hrows1
  exact ⟨T2, h2, hd2, hrows2⟩

/-- The table built by `dynamic_max_calories` exists and holds the recurrence on every
cell, for positive weights below `2^31`, fewer than `2^31 - 1` items and a non-negative
integer capacity below `2^31 - 1`. -/
theorem dpTable_spec (foods : FoodVector) (W : Nat)
    (hn : (foods.length : Int) + 1 ≤ INT_MAX) (hWmax : (W : Int) + 1 ≤ INT_MAX)
    (hw : ∀ f ∈ foods, 0 < f.weight ∧ f.weight < 2147483648) :
    ∃ T, dpTable foods (W : ℚ) = some T ∧ T.Dims (foods.length + 1) (W + 1) ∧
      RowsOK foods W T ((foods.length : Int) + 1) := by
  obtain ⟨T0, h0, hd0⟩ := newTable_dims foods.length W hn hWmax
  obtain ⟨T1, h1, hd1⟩ := initNegative_dims foods.length W T0 hd0
  obtain ⟨T2, h2, hd2, hz2⟩ := initRowZero_spec foods.length W T1 hd1
  obtain ⟨T3, h3, hd3, hz3⟩ := initColZero_spec foods.length W T2 hd2 hz2
  have hrows3 : RowsOK foods W T3 1 := by
    intro m hm j hj0 hjW
    have hm0 : m = 0 := by omega
    subst hm0
    simpa [tableSpec] using hz3 j hj0 hjW
  obtain ⟨T4, h4, hd4, hrows4⟩ :=
    fillTable_spec foods foods.length W hw rfl hWmax T3 hd3 hrows3
  refine ⟨T4, ?_, hd4, hrows4⟩
  unfold dpTable
  rw [toInt_natCast W (by omega), Option.some_bind,
    checkInt_of_bounds (foods.length : Int) (by unfold INT_MIN; omega) (by omega),
    Option.some_bind, h0, Option.some_bind, h1, Option.some_bind, h2, Option.some_bind,
    h3, Option.some_bind]
  exact h4

/-! ## The back-walk follows the recurrence -/

theorem tableSpec_nonneg (foods : FoodVector) (i : Nat) (c : Int) :
    0 ≤ tableSpec foods i c := by
  induction i generalizing c with
  | zero => simp [tableSpec]
  | succ i ih =>
    rw [tableSpec]
    cases h : foods[i]? with
    | none => simp
    | some item => exact le_trans (ih c) (le_max_left _ _)

theorem included_fits (foods : FoodVector) (i : Nat) (item : FoodItem)
    (h : foods[i]? = some item) (j : Int)
    (hne : tableSpec foods (i + 1) j ≠ tableSpec foods i j) :
    truncate item.weight ≤ j ∧
      tableSpec foods (i + 1) j
        = toDouble (item.foodCalories + tableSpec foods i (j - truncate item.weight)) := by
  rw [tableSpec_succ foods i item h j] at hne ⊢
  by_cases hfit : j ≥ truncate item.weight
  · rw [if_pos hfit] at hne ⊢
    refine ⟨hfit, ?_⟩
    rcases le_total (tableSpec foods i j)
      (toDouble (item.foodCalories + tableSpec foods i (j - truncate item.weight))) with hle | hle
    · exact max_eq_right hle
    · exact absurd (max_eq_left hle) hne
  · rw [if_neg hfit] at hne
    exact absurd (max_eq_left (tableSpec_nonneg foods i j)) hne

theorem backWalk_eq (foods : FoodVector) (W : Nat) (hWmax : (W : Int) + 1 ≤ INT_MAX)
    (hw : ∀ f ∈ foods, 0 < f.weight ∧ f.weight < 2147483648)
    (hd : ∀ f ∈ foods, toDouble f.weight = f.weight)
    (T : Table) (hrows : RowsOK foods W T ((foods.length : Int) + 1))
    (i : Nat) (hi : i ≤ foods.length) (j : Int) (hj0 : 0 ≤ j) (hjW : j ≤ W)
    (best : FoodVector) :
    backWalk foods T i j best = some (best ++ walkSpec foods i j) := by
  induction i generalizing j best with
  | zero => simp [backWalk, walkSpec]
  | succ i ih =>
    have hlt : i < foods.length := by omega
    have hitem : foods[i]? = some foods[i] := List.getElem?_eq_getElem hlt
    have hwi := hw _ (List.getElem_mem hlt)
    have hdi := hd _ (List.getElem_mem hlt)
    have ha : T.read ((i + 1 : Nat) : Int) j = some (tableSpec foods (i + 1) j) :=
      hrows (i + 1) (by push_cast; omega) j hj0 hjW
    have hb : T.read (i : Int) j = some (tableSpec foods i j) :=
      hrows i (by omega) j hj0 hjW
    rw [backWalk, ha, hb]
    simp only [Option.some_bind]
    rw [walkSpec]
    simp only [hitem]
    by_cases hne : tableSpec foods (i + 1) j ≠ tableSpec foods i j
    · rw [if_pos hne, if_pos hne, itemAt_natCast, hitem]
      simp only [Option.some_bind]
      obtain ⟨hfit, _⟩ := included_fits foods i _ hitem j hne
      have hj31 : j < 2 ^ 31 := by unfold INT_MAX at hWmax; omega
      obtain ⟨h0, h1⟩ := truncate_sub_bounds _ hdi hwi.1 j hj31 hfit
      have hcw := truncate_nonneg _ (le_of_lt hwi.1)
      rw [toInt_of_bounds _ (by unfold INT_MIN; omega) (by omega)]
      simp only [Option.some_bind]
      rw [ih (by omega) _ h0 (by omega)]
      simp
    · rw [if_neg hne, if_neg hne]
      exact ih (by omega) j hj0 hjW best

/-- For positive double weights below `2^31`, fewer than `2^31 - 1` items and a
non-negative integer capacity below `2^31 - 1`, the dynamic program returns a
solution, and it is the back-walk over the recurrence. -/
theorem dynamic_max_calories_eq (foods : FoodVector) (W : Nat)
    (hn : (foods.length : Int) + 1 ≤ INT_MAX) (hWmax : (W : Int) + 1 ≤ INT_MAX)
    (hw : ∀ f ∈ foods, 0 < f.weight ∧ f.weight < 2147483648)
    (hd : ∀ f ∈ foods, toDouble f.weight = f.weight) :
    dynamic_max_calories foods (W : ℚ) = some (walkSpec foods foods.length W) := by
  obtain ⟨T, hT, _, hrows⟩ := dpTable_spec foods W hn hWmax hw
  unfold dynamic_max_calories
  rw [hT, Option.some_bind, toInt_natCast W (by omega), Option.some_bind]
  have := backWalk_eq foods W hWmax hw hd T hrows foods.length (le_refl _) (W : Int)
    (by omega) (le_refl _) []
  simpa using this

/-! ## Properties of the reconstructed solution -/

theorem truncWeight_cons (x : FoodItem) (xs : FoodVector) :
    truncWeight (x :: xs) = truncate x.weight + truncWeight xs := by
  simp [truncWeight]

theorem truncWeight_append (xs ys : FoodVector) :
    truncWeight (xs ++ ys) = truncWeight xs + truncWeight ys := by
  simp [truncWeight]

theorem truncWeight_nonneg (foods : FoodVector) (hw : ∀ f ∈ foods, 0 < f.weight) :
    0 ≤ truncWeight foods := by
  unfold truncWeight
  apply List.sum_nonneg
  intro x hx
  obtain ⟨f, hf, rfl⟩ := List.mem_map.1 hx
  exact truncate_nonneg _ (le_of_lt (hw f hf))

theorem truncWeight_reverse (xs : FoodVector) :
    truncWeight xs.reverse = truncWeight xs := by
  simp [truncWeight, List.sum_reverse]

theorem truncWeight_cast_eq_sum (foods : FoodVector)
    (hint : ∀ f ∈ foods, ∃ k : Nat, f.weight = (k : ℚ)) :
    ((truncWeight foods : Int) : ℚ) = (foods.map FoodItem.weight).sum := by
  induction foods with
  | nil => simp [truncWeight]
  | cons x xs ih =>
    obtain ⟨k, hk⟩ := hint x (List.mem_cons_self _ _)
    have hxs := ih (fun f hf => hint f (List.mem_cons_of_mem _ hf))
    rw [truncWeight_cons, List.map_cons, List.sum_cons, ← hxs, hk, truncate_natCast]
    push_cast
    rfl

/-- For integer weights whose exact total is below `2^53`, the total weight computed
by `sum_food_vector` is the exact total. -/
theorem totalWeight_eq_truncWeight (foods : FoodVector)
    (hint : ∀ f ∈ foods, ∃ k : Nat, f.weight = (k : ℚ))
    (hb : ((truncWeight foods : Int) : ℚ) < (2 : ℚ) ^ 53) :
    totalWeight foods = ((truncWeight foods : Int) : ℚ) := by
  rw [truncWeight_cast_eq_sum foods hint] at hb ⊢
  rw [totalWeight_eq]
  apply fsum_eq_sum _ 0 (by omega)
  · intro x hx
    obtain ⟨f, hf, rfl⟩ := List.mem_map.1 hx
    obtain ⟨k, hk⟩ := hint f hf
    exact ⟨k, by rw [hk]; simp⟩
  · simpa using hb

theorem take_succ_of_lt (foods : FoodVector) (i : Nat) (h : i < foods.length) :
    foods.take (i + 1) = foods.take i ++ [foods[i]] := by
  rw [List.take_succ, List.getElem?_eq_getElem h]
  rfl

theorem walkSpec_sublist (foods : FoodVector) (i : Nat) (j : Int) :
    (walkSpec foods i j).reverse.Sublist (foods.take i) := by
  induction i generalizing j with
  | zero => simp [walkSpec]
  | succ i ih =>
    rw [walkSpec]
    cases hitem : foods[i]? with
    | none => simp
    | some item =>
      have hlt : i < foods.length := by
        by_contra hc
        rw [List.getElem?_eq_none (by omega)] at hitem
        exact Option.noConfusion hitem
      have hget : foods[i] = item := by
        rw [List.getElem?_eq_getElem hlt] at hitem
        exact Option.some.inj hitem
      rw [take_succ_of_lt foods i hlt, hget]
      simp only []
      by_cases hne : tableSpec foods (i + 1) j ≠ tableSpec foods i j
      · rw [if_pos hne, List.reverse_cons]
        exact List.Sublist.append (ih _) (List.Sublist.refl _)
      · rw [if_neg hne]
        exact (ih j).trans (List.sublist_append_left _ _)

theorem walkSpec_truncWeight (foods : FoodVector)
    (hw : ∀ f ∈ foods, 0 < f.weight ∧ f.weight < 2147483648)
    (hd : ∀ f ∈ foods, toDouble f.weight = f.weight)
    (i : Nat) (j : Int) (hj0 : 0 ≤ j) (hj : j < 2 ^ 31) :
    truncWeight (walkSpec foods i j) ≤ j := by
  induction i generalizing j with
  | zero => simpa [walkSpec, truncWeight] using hj0
  | succ i ih =>
    rw [walkSpec]
    cases hitem : foods[i]? with
    | none => simpa [truncWeight] using hj0
    | some item =>
      have hwi := hw _ (List.getElem?_mem hitem)
      have hdi := hd _ (List.getElem?_mem hitem)
      simp only []
      by_cases hne : tableSpec foods (i + 1) j ≠ tableSpec foods i j
      · rw [if_pos hne, truncWeight_cons]
        obtain ⟨hfit, _⟩ := included_fits foods i _ hitem j hne
        obtain ⟨h0, h1⟩ := truncate_sub_bounds _ hdi hwi.1 j hj hfit
        have hcw := truncate_nonneg _ (le_of_lt hwi.1)
        have := ih _ h0 (by omega)
        omega
      · rw [if_neg hne]
        exact ih j hj0 hj

/-- For integer weights the back-walk, read in catalog order, has the computed total
calories stored in the table cell it started from. -/
theorem walkSpec_calories (foods : FoodVector)
    (hint : ∀ f ∈ foods, ∃ k : Nat, f.weight = (k : ℚ))
    (i : Nat) (j : Int) (hj0 : 0 ≤ j) (hj : j < 2 ^ 31) :
    totalCalories (walkSpec foods i j).reverse = tableSpec foods i j := by
  induction i generalizing j with
  | zero => simp [walkSpec, tableSpec, totalCalories_nil]
  | succ i ih =>
    rw [walkSpec]
    cases hitem : foods[i]? with
    | none => simp [tableSpec, hitem, totalCalories_nil]
    | some item =>
      obtain ⟨k, hk⟩ := hint _ (List.getElem?_mem hitem)
      simp only []
      by_cases hne : tableSpec foods (i + 1) j ≠ tableSpec foods i j
      · rw [if_pos hne, List.reverse_cons, totalCalories_concat]
        obtain ⟨hfit, hval⟩ := included_fits foods i _ hitem j hne
        rw [hk, truncate_natCast] at hfit
        have hsub : truncate (toDouble ((j : ℚ) - item.weight)) = j - truncate item.weight := by
          rw [hk, truncate_natCast]
          have e : (j : ℚ) - ((k : Nat) : ℚ) = ((j - (k : Int) : Int) : ℚ) := by push_cast; rfl
          have hab : |j - (k : Int)| < 2 ^ 53 := by
            rw [abs_of_nonneg (by omega)]
            omega
          rw [e, toDouble_intCast _ hab, truncate_intCast]
        rw [hsub, ih _ (by rw [hk, truncate_natCast]; omega) (by rw [hk, truncate_natCast]; omega),
          hval, add_comm]
      · rw [if_neg hne, ih j hj0 hj]
        exact (not_not.1 hne).symm

/-- The table cell bounds the computed calories of every sub-sequence of the first `i`
items whose truncated weights fit the column. -/
theorem tableSpec_upper (foods : FoodVector) (hw : ∀ f ∈ foods, 0 < f.weight)
    (i : Nat) (hi : i ≤ foods.length) (j : Int) (s : FoodVector)
    (hs : s.Sublist (foods.take i)) (hsw : truncWeight s ≤ j) :
    totalCalories s ≤ tableSpec foods i j := by
  induction i generalizing j s with
  | zero =>
    have : s = [] := by simpa using hs
    subst this
    simp [tableSpec, totalCalories_nil]
  | succ i ih =>
    have hlt : i < foods.length := by omega
    have hitem : foods[i]? = some foods[i] := List.getElem?_eq_getElem hlt
    rw [take_succ_of_lt foods i hlt] at hs
    rw [tableSpec_succ foods i _ hitem j]
    obtain ⟨s1, s2, rfl, hs1, hs2⟩ := List.sublist_append_iff.1 hs
    rw [truncWeight_append] at hsw
    have hs1w : ∀ f ∈ s1, 0 < f.weight :=
      fun f hf => hw f (List.mem_of_mem_take (hs1.subset hf))
    have hs1n := truncWeight_nonneg s1 hs1w
    have hnil : truncWeight ([] : FoodVector) = 0 := by simp [truncWeight]
    rcases List.sublist_singleton.1 hs2 with h2 | h2
    · subst h2
      simp only [List.append_nil]
      rw [hnil, add_zero] at hsw
      exact le_trans (ih (by omega) j s1 hs1 hsw) (le_max_left _ _)
    · subst h2
      rw [truncWeight_cons, hnil, add_zero] at hsw
      have hfit : j ≥ truncate (foods[i]).weight := by omega
      rw [if_pos hfit, totalCalories_concat]
      have := ih (by omega) (j - truncate (foods[i]).weight) s1 hs1 (by omega)
      refine le_trans ?_ (le_max_right _ _)
      apply toDouble_mono
      linarith

/-- When the values add up without rounding, the computed calories of a
sub-sequence of the catalog, in either order, are its exact total. -/
theorem totalCalories_exact (foods : FoodVector) (s : Nat) (hE : ExactValues foods s)
    (l : FoodVector) (hl : l.Sublist foods) :
    totalCalories l = (l.map FoodItem.foodCalories).sum
      ∧ totalCalories l.reverse = (l.map FoodItem.foodCalories).sum := by
  obtain ⟨hs, hg, hb⟩ := hE
  have hp : (0 : ℚ) < (2 : ℚ) ^ s := by positivity
  have hgl : ∀ x ∈ l.map FoodItem.foodCalories, ∃ m : Nat, x = (m : ℚ) / (2 : ℚ) ^ s := by
    intro x hx
    obtain ⟨f, hf, rfl⟩ := List.mem_map.1 hx
    exact hg f (hl.subset hf)
  have hgf : ∀ x ∈ foods.map FoodItem.foodCalories, 0 ≤ x := by
    intro x hx
    obtain ⟨f, hf, rfl⟩ := List.mem_map.1 hx
    obtain ⟨m, hm⟩ := hg f hf
    rw [hm]; positivity
  have hle : (l.map FoodItem.foodCalories).sum ≤ (foods.map FoodItem.foodCalories).sum :=
    List.Sublist.sum_le_sum (hl.map _) hgf
  have hbl : (l.map FoodItem.foodCalories).sum * (2 : ℚ) ^ s < (2 : ℚ) ^ 53 :=
    lt_of_le_of_lt (mul_le_mul_of_nonneg_right hle (le_of_lt hp)) hb
  constructor
  · rw [totalCalories_eq]
    exact fsum_eq_sum _ s hs hgl hbl
  · rw [totalCalories_eq, List.map_reverse]
    have h1 := fsum_eq_sum (l.map FoodItem.foodCalories).reverse s hs
      (fun x hx => hgl x (List.mem_reverse.1 hx)) (by rw [List.sum_reverse]; exact hbl)
    rw [h1, List.sum_reverse]

/-! ## Relating the two algorithms -/

theorem intWeight_truncate (f : FoodItem) (h : ∃ k : Nat, f.weight = (k : ℚ)) :
    ((truncate f.weight : Int) : ℚ) = f.weight := by
  obtain ⟨k, hk⟩ := h
  rw [hk, truncate_natCast]
  simp

theorem truncWeight_le_length_mul (l : FoodVector)
    (hw : ∀ f ∈ l, 0 < f.weight ∧ f.weight < 2147483648) :
    truncWeight l ≤ (l.length : Int) * 2147483647 := by
  induction l with
  | nil => simp [truncWeight]
  | cons x xs ih =>
    have hx := hw x (List.mem_cons_self _ _)
    have h1 : truncate x.weight < 2147483648 :=
      truncate_lt_of_lt _ hx.1 2147483648 (by exact_mod_cast hx.2)
    have h2 := ih (fun f hf => hw f (List.mem_cons_of_mem _ hf))
    rw [truncWeight_cons, List.length_cons]
    push_cast
    omega

/-- For fewer than 54 integer weights below `2^31`, the weight computed by
`sum_food_vector` is the exact total. -/
theorem totalWeight_eq_truncWeight_small (l : FoodVector) (hl : l.length < 54)
    (hw : ∀ f ∈ l, 0 < f.weight ∧ f.weight < 2147483648)
    (hint : ∀ f ∈ l, ∃ k : Nat, f.weight = (k : ℚ)) :
    totalWeight l = ((truncWeight l : Int) : ℚ) := by
  apply totalWeight_eq_truncWeight l hint
  have h1 := truncWeight_le_length_mul l hw
  have h2 : truncWeight l < 2 ^ 53 := by
    have : (l.length : Int) * 2147483647 ≤ 53 * 2147483647 := by
      have : (l.length : Int) ≤ 53 := by omega
      omega
    omega
  exact_mod_cast h2

theorem walkSpec_reverse_sublist (foods : FoodVector) (j : Int) :
    (walkSpec foods foods.length j).reverse.Sublist foods := by
  simpa using walkSpec_sublist foods foods.length j

theorem walkSpec_mem (foods : FoodVector) (j : Int) :
    ∀ f ∈ walkSpec foods foods.length j, f ∈ foods :=
  fun _ hf => (walkSpec_reverse_sublist foods j).subset (List.mem_reverse.2 hf)

theorem sublist_insert_heavy (l1 l2 s : FoodVector) (x : FoodItem) (W : ℚ)
    (hw : ∀ f ∈ l1 ++ l2, 0 < f.weight) (hxd : toDouble x.weight = x.weight)
    (hx0 : 0 < x.weight) (hx : W < x.weight)
    (hs : s.Sublist (l1 ++ x :: l2)) (hsw : totalWeight s ≤ W) :
    s.Sublist (l1 ++ l2) := by
  obtain ⟨s1, s2, rfl, hs1, hs2⟩ := List.sublist_append_iff.1 hs
  rcases List.sublist_cons_iff.1 hs2 with h2 | ⟨r, rfl, hr⟩
  · exact List.Sublist.append hs1 h2
  · exfalso
    have hnn : ∀ y ∈ (s1 ++ x :: r).map FoodItem.weight, 0 ≤ y := by
      intro y hy
      obtain ⟨f, hf, rfl⟩ := List.mem_map.1 hy
      rcases List.mem_append.1 hf with h | h
      · exact le_of_lt (hw f (List.mem_append_left _ (hs1.subset h)))
      · rcases List.mem_cons.1 h with h | h
        · rw [h]; exact le_of_lt hx0
        · exact le_of_lt (hw f (List.mem_append_right _ (hr.subset h)))
    have hmem : x.weight ∈ (s1 ++ x :: r).map FoodItem.weight :=
      List.mem_map.2 ⟨x, by simp, rfl⟩
    have := le_fsum_of_mem _ hnn x.weight hmem hxd
    rw [totalWeight_eq] at hsw
    linarith

/-- For fewer than 54 items, inserting an item heavier than the capacity leaves the
computed total calories of the exhaustive solution unchanged. -/
theorem exhaustive_insert_heavy_small (l1 l2 : FoodVector) (x : FoodItem) (W : ℚ)
    (hn : (l1 ++ x :: l2).length < 54)
    (hw : ∀ f ∈ l1 ++ l2, 0 < f.weight)
    (hv : ∀ f ∈ l1 ++ l2, 0 ≤ f.foodCalories)
    (hxd : toDouble x.weight = x.weight)
    (hxv : 0 ≤ x.foodCalories) (hW : 0 ≤ W) (hx : W < x.weight) :
    totalCalories (exhaustive_max_calories (l1 ++ x :: l2) W)
      = totalCalories (exhaustive_max_calories (l1 ++ l2) W) := by
  have hv' : ∀ f ∈ l1 ++ x :: l2, 0 ≤ f.foodCalories := by
    intro f hf
    rcases List.mem_append.1 hf with h | h
    · exact hv f (List.mem_append_left _ h)
    · rcases List.mem_cons.1 h with h | h
      · rw [h]; exact hxv
      · exact hv f (List.mem_append_right _ h)
  have hn' : (l1 ++ l2).length < 54 := by
    simp only [List.length_append, List.length_cons] at hn ⊢
    omega
  obtain ⟨hsub, hfeas, hopt⟩ := exhaustive_spec (l1 ++ l2) W hn' hv hW
  obtain ⟨hsub', hfeas', hopt'⟩ := exhaustive_spec (l1 ++ x :: l2) W hn hv' hW
  have hincl : (l1 ++ l2).Sublist (l1 ++ x :: l2) :=
    List.Sublist.append (List.Sublist.refl _) (List.sublist_cons_self _ _)
  apply le_antisymm
  · exact hopt _ (sublist_insert_heavy l1 l2 _ x W hw hxd (lt_of_le_of_lt hW hx) hx hsub' hfeas')
      hfeas'
  · exact hopt' _ (hsub.trans hincl) hfeas

/-- Core of the comparison of the two algorithms, for fewer than 54 items with integer
weights below `2^31`: the dynamic solution read in catalog order has the computed
calories of the exhaustive solution. -/
theorem dynamic_exhaustive_same_value (foods : FoodVector) (W : Nat)
    (hn : foods.length < 54) (hW : W < 2147483647)
    (hw : ∀ f ∈ foods, 0 < f.weight ∧ f.weight < 2147483648)
    (hint : ∀ f ∈ foods, ∃ k : Nat, f.weight = (k : ℚ))
    (hv : ∀ f ∈ foods, 0 ≤ f.foodCalories) :
    totalCalories (walkSpec foods foods.length W).reverse
      = totalCalories (exhaustive_max_calories foods (W : ℚ)) := by
  have hd : ∀ f ∈ foods, toDouble f.weight = f.weight := by
    intro f hf
    obtain ⟨k, hk⟩ := hint f hf
    have hlt : (k : ℚ) < 2147483648 := by rw [← hk]; exact (hw f hf).2
    have hk53 : k < 2 ^ 53 := by
      have : k < 2147483648 := by exact_mod_cast hlt
      omega
    rw [hk]
    exact toDouble_natCast k hk53
  have hpos : ∀ f ∈ foods, 0 < f.weight := fun f hf => (hw f hf).1
  have hsub := walkSpec_reverse_sublist foods W
  obtain ⟨hesub, hefeas, hopt⟩ := exhaustive_spec foods (W : ℚ) hn hv (Nat.cast_nonneg W)
  have hval := walkSpec_calories foods hint foods.length W (by omega) (by omega)
  apply le_antisymm
  · -- the dynamic solution is feasible for the exhaustive search
    apply hopt _ hsub
    have hlen : (walkSpec foods foods.length W).reverse.length < 54 :=
      lt_of_le_of_lt hsub.length_le hn
    rw [totalWeight_eq_truncWeight_small _ hlen
      (fun f hf => hw f (hsub.subset hf)) (fun f hf => hint f (hsub.subset hf)),
      truncWeight_reverse]
    have := walkSpec_truncWeight foods hw hd foods.length W (by omega) (by omega)
    exact_mod_cast this
  · -- the exhaustive solution is bounded by the table
    rw [hval]
    apply tableSpec_upper foods hpos foods.length (le_refl _) W _ (by simpa using hesub)
    have hlen : (exhaustive_max_calories foods (W : ℚ)).length < 54 :=
      lt_of_le_of_lt hesub.length_le hn
    rw [totalWeight_eq_truncWeight_small _ hlen
      (fun f hf => hw f (hesub.subset hf)) (fun f hf => hint f (hesub.subset hf))] at hefeas
    exact_mod_cast hefeas

/-! ## The loop bound `i < pow(2, n)` on catalogs of 54 and 55 items -/

theorem takeWhile_range_prefix (p : Nat → Bool) (N m : Nat) (hm : m ≤ N)
    (h : ∀ i, i < m → p i = true) : m ≤ ((List.range N).takeWhile p).length := by
  obtain ⟨d, rfl⟩ := Nat.exists_eq_add_of_le hm
  rw [List.range_add, List.takeWhile_append_of_pos
    (fun a ha => h a (List.mem_range.1 ha))]
  simp

theorem takeWhile_range_stop (p : Nat → Bool) (N k : Nat) (h : p k = false) :
    ((List.range N).takeWhile p).length ≤ k := by
  by_contra hc
  have hk : k ∈ (List.range N).takeWhile p := by
    rw [takeWhile_range p N]
    exact List.mem_range.2 (by omega)
  have := List.mem_takeWhile_imp hk
  rw [h] at this
  exact Bool.noConfusion this

/-- With 54 items the counter `2^54 - 1` converts to the double `2^54`, so the loop
ends before the mask of the whole catalog. -/
theorem visitedMasks_54 :
    2 ^ 53 ≤ (visitedMasks 54).length ∧ (visitedMasks 54).length ≤ 2 ^ 54 - 1 := by
  constructor
  · apply takeWhile_range_prefix _ _ _ (by norm_num)
    intro i hi
    unfold loopTest
    rw [decide_eq_true_eq, toDouble_natCast i hi]
    have : i < 2 ^ 54 := by omega
    exact_mod_cast this
  · exact takeWhile_range_stop _ _ _ (by decide!)

/-- With 55 items every counter up to `2^55 - 3` passes the loop test. -/
theorem visitedMasks_55 : 2 ^ 55 - 2 ≤ (visitedMasks 55).length := by
  apply takeWhile_range_prefix _ _ _ (by norm_num)
  intro i hi
  unfold loopTest
  rw [decide_eq_true_eq]
  have h1 : ((i : Nat) : ℚ) ≤ ((2 ^ 55 - 3 : Nat) : ℚ) := by
    have : i ≤ 2 ^ 55 - 3 := by omega
    exact_mod_cast this
  have h2 := toDouble_mono _ _ h1
  have h3 : toDouble ((2 ^ 55 - 3 : Nat) : ℚ) < ((2 ^ 55 : Nat) : ℚ) := by decide!
  exact lt_of_le_of_lt h2 h3

theorem candidate_length_lt (foods : FoodVector) (m : Nat)
    (hm : m < 2 ^ foods.length - 1) :
    (candidate foods foods.length m).length < foods.length := by
  induction foods generalizing m with
  | nil => simp at hm
  | cons x xs ih =>
    rw [List.length_cons] at hm ⊢
    rw [candidate_cons, List.length_append]
    have hsub := (candidate_sublist xs (m / 2)).length_le
    by_cases hodd : m % 2 = 1
    · rw [if_pos hodd]
      have hpow : 2 ^ (xs.length + 1) = 2 * 2 ^ xs.length := by ring
      have := ih (m / 2) (by omega)
      simp only [List.length_singleton]
      omega
    · rw [if_neg hodd]
      simp only [List.length_nil]
      omega

theorem totalCalories_units (k : Nat) (hk : k < 2 ^ 53) : totalCalories (units k) = k := by
  induction k with
  | zero => simp [units, totalCalories_nil]
  | succ k ih =>
    have hr : units (k + 1) = units k ++ [unitItem] := by
      unfold units
      exact List.replicate_succ' k unitItem
    rw [hr, totalCalories_concat, ih (by omega)]
    have : ((k : ℚ) + unitItem.foodCalories) = ((k + 1 : Nat) : ℚ) := by
      simp [unitItem]
    rw [this, toDouble_natCast (k + 1) hk]

theorem sublist_units (s : FoodVector) (k : Nat) (h : s.Sublist (units k)) :
    s = units s.length ∧ s.length ≤ k := by
  obtain ⟨n, hn, rfl⟩ := List.sublist_replicate_iff.1 h
  simp [units, hn]

/-- On 54 items of weight 1 and value 1 with capacity 54 the search returns a solution
of computed calories 53: the mask of the whole catalog is never reached. -/
theorem exhaustive_units54_value :
    totalCalories (exhaustive_max_calories (units 54) 54) = 53 := by
  have hv : ∀ f ∈ units 54, 0 ≤ f.foodCalories := by
    intro f hf
    rw [List.eq_of_mem_replicate hf]
    decide!
  obtain ⟨hlo, hhi⟩ := visitedMasks_54
  have hlen : (units 54).length = 54 := by simp [units]
  obtain ⟨_, hsrc, hopt⟩ := exhaustive_loop_inv (units 54) 54 hv (visitedMasks 54).length
  rw [exhaustive_eq_loop, hlen]
  rw [hlen] at hsrc hopt
  apply le_antisymm
  · rcases hsrc with h | ⟨m, hm, _, h⟩
    · rw [h, totalCalories_nil]; norm_num
    · rw [h]
      have hl := candidate_length_lt (units 54) m (by rw [hlen]; omega)
      rw [hlen] at hl
      have hs := candidate_sublist (units 54) m
      rw [hlen] at hs
      obtain ⟨he, _⟩ := sublist_units _ 54 hs
      rw [he, totalCalories_units _ (by omega)]
      have : (candidate (units 54) 54 m).length ≤ 53 := by omega
      exact_mod_cast this
  · have h1 : totalWeight (candidate (units 54) 54 (2 ^ 53 - 1)) ≤ 54 := by decide!
    have h2 : totalCalories (candidate (units 54) 54 (2 ^ 53 - 1)) = 53 := by decide!
    have := hopt (2 ^ 53 - 1) (by omega) h1
    rw [h2] at this
    exact this

/-- After the heavy item is inserted at position 1 the catalog has 55 items and the
mask `2^55 - 3`, which selects the 54 light items, is reached: the computed calories
of the solution are 54. -/
theorem exhaustive_units55_value :
    totalCalories (exhaustive_max_calories ([unitItem] ++ heavyItem :: units 53) 54) = 54 := by
  have hv : ∀ f ∈ [unitItem] ++ heavyItem :: units 53, 0 ≤ f.foodCalories := by
    intro f hf
    simp only [List.singleton_append, List.mem_cons] at hf
    rcases hf with h | h | h
    · rw [h]; decide!
    · rw [h]; decide!
    · rw [List.eq_of_mem_replicate h]; decide!
  have hlo := visitedMasks_55
  have hlen : ([unitItem] ++ heavyItem :: units 53).length = 55 := by simp [units]
  obtain ⟨_, hsrc, hopt⟩ := exhaustive_loop_inv ([unitItem] ++ heavyItem :: units 53) 54 hv
    (visitedMasks 55).length
  rw [exhaustive_eq_loop, hlen]
  rw [hlen] at hsrc hopt
  apply le_antisymm
  · rcases hsrc with h | ⟨m, _, hfeas, h⟩
    · rw [h, totalCalories_nil]; norm_num
    · rw [h]
      have hs := candidate_sublist ([unitItem] ++ heavyItem :: units 53) m
      rw [hlen] at hs
      have hw : ∀ f ∈ [unitItem] ++ units 53, 0 < f.weight := by
        intro f hf
        simp only [List.singleton_append, List.mem_cons] at hf
        rcases hf with h | h
        · rw [h]; decide!
        · rw [List.eq_of_mem_replicate h]; decide!
      have hs2 := sublist_insert_heavy [unitItem] (units 53) _ heavyItem 54 hw
        (by decide!) (by decide!) (by decide!) hs hfeas
      have h54 : [unitItem] ++ units 53 = units 54 := rfl
      rw [h54] at hs2
      obtain ⟨he, hle⟩ := sublist_units _ 54 hs2
      rw [he, totalCalories_units _ (by omega)]
      exact_mod_cast hle
  · have h1 : totalWeight
        (candidate ([unitItem] ++ heavyItem :: units 53) 55 (2 ^ 55 - 3)) ≤ 54 := by decide!
    have h2 : totalCalories
        (candidate ([unitItem] ++ heavyItem :: units 53) 55 (2 ^ 55 - 3)) = 54 := by decide!
    have := hopt (2 ^ 55 - 3) (by omega) h1
    rw [h2] at this
    exact this

/-! ## Evaluations of the rounded arithmetic -/

/-- Rounding at work in the model: `10^16 + 1` rounds to `10^16`, so two items of
weights `10^16` and 1 pass the test `weightSum <= total_weight` at capacity `10^16`,
and the cell `T[2][2]` for the values `10^16` and 1 holds `10^16`. -/
theorem rounding_evaluations :
    toDouble (10 ^ 16 + 1) = 10 ^ 16
      ∧ exhaustive_max_calories [⟨"A", 10 ^ 16, 1⟩, ⟨"B", 1, 1⟩] (10 ^ 16)
          = [⟨"A", 10 ^ 16, 1⟩, ⟨"B", 1, 1⟩]
      ∧ (dpTable [⟨"A", 1, 10 ^ 16⟩, ⟨"B", 1, 1⟩] 2).bind (fun T => T.read 2 2)
          = some (10 ^ 16)
      ∧ toDouble (toDouble (toDouble (1 / 10) + toDouble (2 / 10)) + toDouble (3 / 10))
          ≠ toDouble (toDouble (toDouble (3 / 10) + toDouble (2 / 10)) + toDouble (1 / 10)) := by
  decide!

/-! ## Claims on the two optimisers -/

theorem sum_food_vector_snd (foods : FoodVector) :
    (sum_food_vector foods).2 = totalCalories foods := rfl

/-- C1 (counterexample): on three items of weight 1 whose values are the doubles
nearest to 0.1, 0.2 and 0.3, with capacity 3, both algorithms select all three items,
the exhaustive search in catalog order and the dynamic program in reverse order, and
`sum_food_vector` computes different total calories for the two returned vectors. -/
theorem exhaustive_dynamic_rounding_differs :
    tenthsCatalog.length < 64
      ∧ (∀ f ∈ tenthsCatalog, f.Representable ∧ f.weight = 1 ∧ 0 ≤ f.foodCalories)
      ∧ exhaustive_max_calories tenthsCatalog ((3 : Nat) : ℚ) = tenthsCatalog
      ∧ dynamic_max_calories tenthsCatalog ((3 : Nat) : ℚ) = some tenthsCatalog.reverse
      ∧ (sum_food_vector tenthsCatalog.reverse).2 ≠ (sum_food_vector tenthsCatalog).2 := by
  decide!

/-- C1 (amended): for a catalog of fewer than 54 items (finite doubles of magnitude at
most `2^960`) whose weights are positive integers below `2^31` and whose values are
non-negative, and a non-negative integer capacity below `2^31 - 1`,
`dynamic_max_calories` returns a solution which, read in catalog order (reversed), has
the total calories (second output of `sum_food_vector`) of the solution of
`exhaustive_max_calories`; when the values add up without rounding the same holds for
the returned vector itself. -/
theorem exhaustive_dynamic_equal_value (foods : FoodVector) (W : Nat)
    (hn : foods.length < 54) (hW : W < 2147483647)
    (hr : ∀ f ∈ foods, f.Representable)
    (hw : ∀ f ∈ foods, 0 < f.weight ∧ f.weight < 2147483648 ∧ ∃ k : Nat, f.weight = (k : ℚ))
    (hv : ∀ f ∈ foods, 0 ≤ f.foodCalories) :
    ∃ r, dynamic_max_calories foods (W : ℚ) = some r ∧
      (sum_food_vector r.reverse).2
        = (sum_food_vector (exhaustive_max_calories foods (W : ℚ))).2 ∧
      ∀ s : Nat, ExactValues foods s →
        (sum_food_vector r).2
          = (sum_food_vector (exhaustive_max_calories foods (W : ℚ))).2 := by
  have hw' : ∀ f ∈ foods, 0 < f.weight ∧ f.weight < 2147483648 :=
    fun f hf => ⟨(hw f hf).1, (hw f hf).2.1⟩
  have hint : ∀ f ∈ foods, ∃ k : Nat, f.weight = (k : ℚ) := fun f hf => (hw f hf).2.2
  have hd : ∀ f ∈ foods, toDouble f.weight = f.weight := fun f hf => (hr f hf).1.1
  have hval := dynamic_exhaustive_same_value foods W hn hW hw' hint hv
  refine ⟨_, dynamic_max_calories_eq foods W (by unfold INT_MAX; omega)
    (by unfold INT_MAX; omega) hw' hd, hval, ?_⟩
  intro s hE
  have hx := totalCalories_exact foods s hE _ (walkSpec_reverse_sublist foods W)
  rw [List.reverse_reverse] at hx
  change totalCalories _ = totalCalories _
  rw [hx.2, ← hx.1]
  exact hval

theorem exhaustive_dynamic_equal_value_witness :
    ∃ r, dynamic_max_calories exampleCatalog ((5 : Nat) : ℚ) = some r ∧
      (sum_food_vector r.reverse).2
        = (sum_food_vector (exhaustive_max_calories exampleCatalog ((5 : Nat) : ℚ))).2 ∧
      (sum_food_vector r).2
        = (sum_food_vector (exhaustive_max_calories exampleCatalog ((5 : Nat) : ℚ))).2 := by
  obtain ⟨r, h1, h2, h3⟩ := exhaustive_dynamic_equal_value exampleCatalog 5 (by decide)
    (by decide) (by decide!)
    (by
      intro f hf
      simp only [exampleCatalog, List.mem_cons, List.mem_singleton, List.not_mem_nil,
        or_false] at hf
      rcases hf with rfl | rfl | rfl | rfl
      · exact ⟨by decide!, by decide!, 2, by decide!⟩
      · exact ⟨by decide!, by decide!, 3, by decide!⟩
      · exact ⟨by decide!, by decide!, 4, by decide!⟩
      · exact ⟨by decide!, by decide!, 5, by decide!⟩)
    (by decide!)
  refine ⟨r, h1, h2, h3 0 ⟨by decide, ?_, by decide!⟩⟩
  intro f hf
  simp only [exampleCatalog, List.mem_cons, List.mem_singleton, List.not_mem_nil,
    or_false] at hf
  rcases hf with rfl | rfl | rfl | rfl
  · exact ⟨3, by decide!⟩
  · exact ⟨4, by decide!⟩
  · exact ⟨5, by decide!⟩
  · exact ⟨6, by decide!⟩

/-- C2 (evaluation at the failing input): on 54 items of weight 1 and value 1 with
capacity 54 the whole catalog is a feasible sub-sequence of computed calories 54, yet
the solution returned by `exhaustive_max_calories` has computed calories 53: the loop
test `i < pow(2, n)` converts the counter `2^54 - 1` to the double `2^54` and ends the
loop before the mask of the whole catalog. -/
theorem exhaustive_misses_full_catalog :
    (units 54).length < 64
      ∧ (∀ f ∈ units 54, 0 < f.weight ∧ 0 ≤ f.foodCalories)
      ∧ (units 54).Sublist (units 54)
      ∧ (sum_food_vector (units 54)).1 ≤ 54
      ∧ (sum_food_vector (units 54)).2 = 54
      ∧ (sum_food_vector (exhaustive_max_calories (units 54) 54)).2 = 53
      ∧ loopTest 54 (2 ^ 54 - 1) = false := by
  refine ⟨by simp [units], by decide!, List.Sublist.refl _, by decide!, by decide!, ?_,
    by decide!⟩
  rw [sum_food_vector_snd]
  exact exhaustive_units54_value

/-- C3 (evaluation at the failing input): on `[A (w 1, v 10), B (w 1.5, v 1)]` with
capacity 2 the table answer `T[2][2]` is 11, yet the back-walk, which subtracts the
untruncated weight 1.5 and lands in column 0 instead of column 1, returns only `B`,
of total calories 1. -/
theorem dynamic_backwalk_fractional_mismatch :
    (dpTable fracCatalog 2).bind (fun T => T.read 2 2) = some 11
      ∧ dynamic_max_calories fracCatalog 2 = some [⟨"B", 3 / 2, 1⟩]
      ∧ (sum_food_vector [⟨"B", 3 / 2, 1⟩]).2 = 1 := by
  decide!

/-- C4 (counterexample): a single item of weight 1.5 with capacity 1 is returned,
although its actual weight exceeds the capacity. Besides, for an item of weight three
thousand million the conversion of the weight to `int` is out of range and no solution
is returned. -/
theorem dynamic_actual_weight_exceeds :
    0 < heavyHalf.weight ∧ 0 ≤ heavyHalf.foodCalories
      ∧ dynamic_max_calories [heavyHalf] ((1 : Nat) : ℚ) = some [heavyHalf]
      ∧ ¬ (sum_food_vector [heavyHalf]).1 ≤ ((1 : Nat) : ℚ)
      ∧ dynamic_max_calories [giantItem] ((1 : Nat) : ℚ) = none := by
  decide!

/-- C4 (amended): for fewer than `2^31 - 1` items (finite doubles of magnitude at most
`2^960`) with positive weights below `2^31`, and a non-negative integer capacity below
`2^31 - 1`,
`dynamic_max_calories` returns a solution whose truncated weights sum to at most the
capacity; when every weight is an integer this bounds the total weight computed by
`sum_food_vector`. -/
theorem dynamic_truncated_weight_le_capacity (foods : FoodVector) (W : Nat)
    (hn : foods.length < 2147483647) (hW : W < 2147483647)
    (hr : ∀ f ∈ foods, f.Representable)
    (hw : ∀ f ∈ foods, 0 < f.weight ∧ f.weight < 2147483648) :
    ∃ r, dynamic_max_calories foods (W : ℚ) = some r ∧
      (r.map (fun f => truncate f.weight)).sum ≤ (W : Int) ∧
      ((∀ f ∈ foods, ∃ k : Nat, f.weight = (k : ℚ)) → (sum_food_vector r).1 ≤ (W : ℚ)) := by
  have hd : ∀ f ∈ foods, toDouble f.weight = f.weight := fun f hf => (hr f hf).1.1
  have htw := walkSpec_truncWeight foods hw hd foods.length W (by omega) (by omega)
  refine ⟨_, dynamic_max_calories_eq foods W (by unfold INT_MAX; omega)
    (by unfold INT_MAX; omega) hw hd, htw, ?_⟩
  intro hk
  have hint : ∀ f ∈ walkSpec foods foods.length W, ∃ k : Nat, f.weight = (k : ℚ) :=
    fun f hf => hk f (walkSpec_mem foods W f hf)
  have hb : ((truncWeight (walkSpec foods foods.length W) : Int) : ℚ) < (2 : ℚ) ^ 53 := by
    have : truncWeight (walkSpec foods foods.length W) < 2 ^ 53 := by omega
    exact_mod_cast this
  change totalWeight _ ≤ _
  rw [totalWeight_eq_truncWeight _ hint hb]
  exact_mod_cast htw

theorem dynamic_truncated_weight_le_capacity_witness :
    (∃ r, dynamic_max_calories [heavyHalf] ((1 : Nat) : ℚ) = some r ∧
      (r.map (fun f => truncate f.weight)).sum ≤ ((1 : Nat) : Int))
    ∧ ∃ r, dynamic_max_calories exampleCatalog ((5 : Nat) : ℚ) = some r ∧
      (r.map (fun f => truncate f.weight)).sum ≤ ((5 : Nat) : Int) ∧
      (sum_food_vector r).1 ≤ ((5 : Nat) : ℚ) := by
  obtain ⟨r1, h1, h2, _⟩ := dynamic_truncated_weight_le_capacity [heavyHalf] 1
    (by decide) (by decide) (by decide!) (by decide!)
  obtain ⟨r2, h3, h4, h5⟩ := dynamic_truncated_weight_le_capacity exampleCatalog 5
    (by decide) (by decide) (by decide!) (by decide!)
  refine ⟨⟨r1, h1, h2⟩, r2, h3, h4, h5 ?_⟩
  intro f hf
  simp only [exampleCatalog, List.mem_cons, List.mem_singleton, List.not_mem_nil,
    or_false] at hf
  rcases hf with rfl | rfl | rfl | rfl
  · exact ⟨2, by decide!⟩
  · exact ⟨3, by decide!⟩
  · exact ⟨4, by decide!⟩
  · exact ⟨5, by decide!⟩

/-- C5 (evaluation at the failing input): on the one-item catalog `[A (w 1, v 0)]`
with capacity 1 the empty subset (mask 0) is feasible and already has the maximum
value 0, yet the search returns mask 1, which only ties it. -/
theorem exhaustive_tie_replaces_empty :
    exhaustive_max_calories [zeroValued] 1 = candidate [zeroValued] 1 1
      ∧ candidate [zeroValued] 1 1 = [zeroValued]
      ∧ candidate [zeroValued] 1 0 = []
      ∧ (sum_food_vector (candidate [zeroValued] 1 0)).1 ≤ 1
      ∧ (sum_food_vector (candidate [zeroValued] 1 0)).2
          = (sum_food_vector (candidate [zeroValued] 1 1)).2
      ∧ exhaustive_max_calories [zeroValued] 1 ≠ candidate [zeroValued] 1 0 := by
  decide!

/-- C6: on the catalog `[A (2, 3), B (3, 4), C (4, 5), D (5, 6)]` with capacity 5 the
exhaustive search returns `A, B` and the dynamic program returns `B, A`; the total
value is 7 and the total weight is 5. -/
theorem example_catalog_solutions :
    exhaustive_max_calories exampleCatalog 5 = [itemA, itemB]
      ∧ dynamic_max_calories exampleCatalog 5 = some [itemB, itemA]
      ∧ sum_food_vector [itemA, itemB] = (5, 7)
      ∧ sum_food_vector [itemB, itemA] = (5, 7) := by
  decide!

/-- C7 (counterexample): with capacity 0, an item of weight 0.5 and value 1 is
returned. Besides, for an item of weight three thousand million the conversion of the
weight to `int` is out of range and no solution is returned. -/
theorem dynamic_capacity_zero_nonempty :
    0 < lightHalf.weight ∧ lightHalf.weight < 1 ∧ 0 ≤ lightHalf.foodCalories
      ∧ dynamic_max_calories [lightHalf] 0 = some [lightHalf]
      ∧ dynamic_max_calories [giantItem] 0 = none := by
  decide!

/-- C7 (amended): for fewer than `2^31 - 1` items (finite doubles of magnitude at most
`2^960`) whose weights are at least 1 and below `2^31`, `dynamic_max_calories` called
with capacity 0 returns the empty solution. -/
theorem dynamic_capacity_zero_empty (foods : FoodVector)
    (hn : foods.length < 2147483647)
    (hr : ∀ f ∈ foods, f.Representable)
    (hw : ∀ f ∈ foods, 1 ≤ f.weight ∧ f.weight < 2147483648) :
    dynamic_max_calories foods 0 = some [] := by
  have hd : ∀ f ∈ foods, toDouble f.weight = f.weight := fun f hf => (hr f hf).1.1
  have hw' : ∀ f ∈ foods, 0 < f.weight ∧ f.weight < 2147483648 :=
    fun f hf => ⟨lt_of_lt_of_le one_pos (hw f hf).1, (hw f hf).2⟩
  have h := dynamic_max_calories_eq foods 0 (by unfold INT_MAX; omega)
    (by unfold INT_MAX; omega) hw' hd
  rw [Nat.cast_zero] at h
  rw [h]
  congr 1
  have hsub := walkSpec_reverse_sublist foods ((0 : Nat) : Int)
  have htw := walkSpec_truncWeight foods hw' hd foods.length ((0 : Nat) : Int) (by omega)
    (by omega)
  cases hr : walkSpec foods foods.length ((0 : Nat) : Int) with
  | nil => rfl
  | cons x xs =>
    exfalso
    rw [hr] at hsub htw
    have hx : x ∈ foods := hsub.subset (by simp)
    have hxs : ∀ f ∈ xs, 0 < f.weight :=
      fun f hf => (hw' f (hsub.subset (by simp [hf]))).1
    have h1 : 1 ≤ truncate x.weight := by
      rw [truncate_of_pos _ (hw' x hx).1, Int.le_floor]
      simpa using (hw x hx).1
    have h2 := truncWeight_nonneg xs hxs
    rw [truncWeight_cons] at htw
    omega

theorem dynamic_capacity_zero_empty_witness :
    dynamic_max_calories exampleCatalog 0 = some [] :=
  dynamic_capacity_zero_empty exampleCatalog (by decide) (by decide!) (by decide!)

/-- C8 (counterexample): a single item of weight 1 and value 0 with capacity 1 is not
returned; the solution is empty. Besides, for the capacity three thousand million the
conversion of the capacity to `int` is out of range and no solution is returned. -/
theorem dynamic_single_zero_value_dropped :
    0 < zeroValued.weight ∧ 0 ≤ zeroValued.foodCalories
      ∧ zeroValued.weight ≤ ((1 : Nat) : ℚ)
      ∧ dynamic_max_calories [zeroValued] ((1 : Nat) : ℚ) = some []
      ∧ dynamic_max_calories [zeroValued] ((1 : Nat) : ℚ) ≠ some [zeroValued]
      ∧ dynamic_max_calories [unitItem] ((3000000000 : Nat) : ℚ) = none := by
  decide!

/-- C8 (amended): for a single item (finite doubles of magnitude at most `2^960`)
with positive weight and strictly positive value, and a non-negative integer capacity
below `2^31 - 1` that is at least the weight, `dynamic_max_calories` returns the
solution containing exactly that item. -/
theorem dynamic_single_item (x : FoodItem) (W : Nat) (hW : W < 2147483647)
    (hr : x.Representable) (hw : 0 < x.weight) (hv : 0 < x.foodCalories)
    (hfit : x.weight ≤ (W : ℚ)) :
    dynamic_max_calories [x] (W : ℚ) = some [x] := by
  have hwd : toDouble x.weight = x.weight := hr.1.1
  have hvd : toDouble x.foodCalories = x.foodCalories := hr.2.1
  have hlt : x.weight < 2147483648 := by
    have : (W : ℚ) < 2147483647 := by exact_mod_cast hW
    linarith
  have hpos : ∀ f ∈ [x], 0 < f.weight ∧ f.weight < 2147483648 := by
    intro f hf
    rw [List.mem_singleton.1 hf]; exact ⟨hw, hlt⟩
  have hd : ∀ f ∈ [x], toDouble f.weight = f.weight := by
    intro f hf
    rw [List.mem_singleton.1 hf]; exact hwd
  rw [dynamic_max_calories_eq [x] W (by unfold INT_MAX; simp) (by unfold INT_MAX; omega)
    hpos hd]
  congr 1
  have hcw : truncate x.weight ≤ (W : Int) :=
    truncate_le_of_le _ _ (by simpa using hfit)
  have h0 : ([x] : FoodVector)[0]? = some x := rfl
  have ht : tableSpec [x] 1 (W : Int) = x.foodCalories := by
    rw [tableSpec_succ [x] 0 x h0, if_pos hcw]
    simp [tableSpec, hvd, le_of_lt hv]
  have hne : tableSpec [x] (0 + 1) (W : Int) ≠ tableSpec [x] 0 (W : Int) := by
    rw [ht]
    simp [tableSpec, ne_of_gt hv]
  change walkSpec [x] (0 + 1) (W : Int) = [x]
  rw [walkSpec]
  simp only [h0]
  rw [if_pos hne]
  simp [walkSpec]

theorem dynamic_single_item_witness :
    dynamic_max_calories [overweight] ((3 : Nat) : ℚ) = some [overweight] :=
  dynamic_single_item overweight 3 (by decide) (by decide!) (by decide!) (by decide!)
    (by decide!)

/-- C9 (counterexample): an item of weight 2.5, strictly greater than the capacity 2,
appears in the solution. Besides, when the catalog holds an item of weight three
thousand million the conversion of that weight to `int` is out of range and no
solution is returned. -/
theorem dynamic_selects_overweight_item :
    0 < overweight.weight ∧ 0 ≤ overweight.foodCalories
      ∧ ((2 : Nat) : ℚ) < overweight.weight
      ∧ (∃ r, dynamic_max_calories [overweight] ((2 : Nat) : ℚ) = some r ∧ overweight ∈ r)
      ∧ dynamic_max_calories [itemA, giantItem] ((2 : Nat) : ℚ) = none :=
  ⟨by decide!, by decide!, by decide!, ⟨[overweight], by decide!, by decide!⟩, by decide!⟩

/-- C9 (amended): for fewer than `2^31 - 1` items (finite doubles of magnitude at most
`2^960`) with positive weights below `2^31`, and a non-negative integer capacity below
`2^31 - 1`, `dynamic_max_calories` returns a solution and no item whose
truncated weight is strictly greater than the capacity appears in it; in particular
no item of integer weight above the capacity appears. -/
theorem dynamic_no_item_above_capacity (foods : FoodVector) (W : Nat)
    (hn : foods.length < 2147483647) (hW : W < 2147483647)
    (hr : ∀ f ∈ foods, f.Representable)
    (hw : ∀ f ∈ foods, 0 < f.weight ∧ f.weight < 2147483648) :
    ∃ r, dynamic_max_calories foods (W : ℚ) = some r ∧
      (∀ f ∈ r, ¬ (W : Int) < truncate f.weight) ∧
      (∀ f ∈ r, (∃ k : Nat, f.weight = (k : ℚ)) → ¬ (W : ℚ) < f.weight) := by
  have hd : ∀ f ∈ foods, toDouble f.weight = f.weight := fun f hf => (hr f hf).1.1
  have hall : ∀ f ∈ walkSpec foods foods.length W, ¬ (W : Int) < truncate f.weight := by
    intro f hf hlt
    have hposr : ∀ g ∈ walkSpec foods foods.length W, 0 < g.weight :=
      fun g hg => (hw g (walkSpec_mem foods W g hg)).1
    have htw := walkSpec_truncWeight foods hw hd foods.length W (by omega) (by omega)
    obtain ⟨l1, l2, hsplit⟩ := List.append_of_mem hf
    rw [hsplit] at htw hposr
    rw [truncWeight_append, truncWeight_cons] at htw
    have h1 := truncWeight_nonneg l1 (fun g hg => hposr g (by simp [hg]))
    have h2 := truncWeight_nonneg l2 (fun g hg => hposr g (by simp [hg]))
    omega
  refine ⟨_, dynamic_max_calories_eq foods W (by unfold INT_MAX; omega)
    (by unfold INT_MAX; omega) hw hd, hall, ?_⟩
  intro f hf ⟨k, hk⟩ hlt
  apply hall f hf
  rw [hk, truncate_natCast]
  rw [hk] at hlt
  exact_mod_cast hlt

theorem dynamic_no_item_above_capacity_witness :
    ∃ r, dynamic_max_calories [itemA, itemD] ((3 : Nat) : ℚ) = some r ∧
      (∀ f ∈ r, ¬ ((3 : Nat) : Int) < truncate f.weight) ∧
      (∀ f ∈ r, (∃ k : Nat, f.weight = (k : ℚ)) → ¬ ((3 : Nat) : ℚ) < f.weight) ∧
      ((3 : Nat) : Int) < truncate itemD.weight ∧ itemD ∉ r := by
  obtain ⟨r, h1, h2, h3⟩ := dynamic_no_item_above_capacity [itemA, itemD] 3
    (by decide) (by decide) (by decide!) (by decide!)
  have hD : ((3 : Nat) : Int) < truncate itemD.weight := by decide!
  exact ⟨r, h1, h2, h3, hD, fun hmem => h2 itemD hmem hD⟩

/-- C10 (evaluation at the failing input): the catalog of 54 items of weight 1 and
value 1 with capacity 54 gives a solution of computed calories 53; after the item `x`
of weight 100, heavier than the capacity, is inserted at position 1 (55 items) the
solution has computed calories 54. The loop test `i < pow(2, n)` compares a rounded
counter, and the insertion changes which masks are reached. -/
theorem exhaustive_insert_heavy_changes_value :
    ([unitItem] ++ heavyItem :: units 53).length < 64
      ∧ (∀ f ∈ [unitItem] ++ units 53, 0 < f.weight ∧ 0 ≤ f.foodCalories)
      ∧ 0 ≤ heavyItem.foodCalories ∧ (54 : ℚ) < heavyItem.weight
      ∧ (sum_food_vector (exhaustive_max_calories ([unitItem] ++ units 53) 54)).2 = 53
      ∧ (sum_food_vector
          (exhaustive_max_calories ([unitItem] ++ heavyItem :: units 53) 54)).2 = 54 := by
  refine ⟨by simp [units], by decide!, by decide!, by decide!, ?_, ?_⟩
  · rw [sum_food_vector_snd]
    exact exhaustive_units54_value
  · rw [sum_food_vector_snd]
    exact exhaustive_units55_value

/-! ## Capacity truncation and the empty catalog -/

theorem dynamic_max_calories_trunc (foods : FoodVector) (tw : ℚ) :
    dynamic_max_calories foods tw = dynamic_max_calories foods ((truncate tw : Int) : ℚ) := by
  unfold dynamic_max_calories dpTable toInt
  simp only [truncate_intCast]

/-- For a capacity above -1 and below `2^31 - 1` the dynamic program behaves as for
the truncated capacity and returns the back-walk over the recurrence. -/
theorem dynamic_max_calories_eq_of_gt (foods : FoodVector) (tw : ℚ)
    (h : -1 < tw) (hlt : tw < 2147483647)
    (hn : foods.length < 2147483647)
    (hw : ∀ f ∈ foods, 0 < f.weight ∧ f.weight < 2147483648)
    (hd : ∀ f ∈ foods, toDouble f.weight = f.weight) :
    dynamic_max_calories foods tw = some (walkSpec foods foods.length (truncate tw)) := by
  obtain ⟨k, hk⟩ := Int.eq_ofNat_of_zero_le (truncate_nonneg_of_gt tw h)
  have hk2 : truncate tw < 2147483647 := by
    rcases le_or_lt 0 tw with h0 | h0
    · rw [truncate_of_pos_or_zero tw h0, Int.floor_lt]
      exact_mod_cast hlt
    · have := truncate_le_of_le tw 0 (by exact_mod_cast le_of_lt h0)
      omega
  rw [dynamic_max_calories_trunc, hk, Int.cast_natCast]
  exact dynamic_max_calories_eq foods k (by unfold INT_MAX; omega)
    (by unfold INT_MAX; omega) hw hd

/-- C11 (counterexample): for the empty catalog and the capacity three thousand
million, which is `≥ 0`, the conversion `const int W = total_weight` is out of range
and `dynamic_max_calories` returns no solution. -/
theorem empty_catalog_capacity_overflow :
    (0 : ℚ) ≤ 3000000000 ∧ dynamic_max_calories [] 3000000000 = none
      ∧ toInt 3000000000 = none := by
  decide!

/-- C11 (amended): for the empty catalog and every capacity `≥ 0` below `2^31 - 1`,
both `exhaustive_max_calories` and `dynamic_max_calories` return the empty solution,
whose total weight and total calories are 0. -/
theorem empty_catalog_solutions (W : ℚ) (hW : 0 ≤ W) (hlt : W < 2147483647) :
    exhaustive_max_calories [] W = []
      ∧ dynamic_max_calories [] W = some []
      ∧ sum_food_vector [] = (0, 0) := by
  refine ⟨?_, ?_, rfl⟩
  · obtain ⟨hsub, _, _⟩ := exhaustive_spec [] W (by simp) (by simp) hW
    exact List.eq_nil_of_sublist_nil hsub
  · rw [dynamic_max_calories_eq_of_gt [] W (by linarith) hlt (by simp) (by simp) (by simp)]
    simp [walkSpec]

theorem empty_catalog_solutions_witness :
    exhaustive_max_calories [] (7 / 2) = []
      ∧ dynamic_max_calories [] (7 / 2) = some []
      ∧ sum_food_vector [] = (0, 0) :=
  empty_catalog_solutions (7 / 2) (by decide!) (by decide!)

/-! ## Construction of items -/

theorem construct_isSome_iff (description : String) (w c : ℚ) :
    (FoodItem.construct description w c).isSome ↔ description.isEmpty = false ∧ 0 < w := by
  unfold FoodItem.construct
  by_cases hd : description.isEmpty = true
  · simp [hd]
  · by_cases hw : w > 0
    · simp [hd, hw]
    · simp [hd, hw]

/-- C12 (evaluation at the failing input): with the assertions enabled, an empty
description or a non-positive weight aborts the construction, but the item
`("x", 1, -5)` with negative calories is constructed. -/
theorem construct_accepts_negative_calories :
    FoodItem.construct "x" 1 (-5) = some ⟨"x", 1, -5⟩
      ∧ FoodItem.construct "x" 0 5 = none
      ∧ FoodItem.construct "" 1 5 = none := by
  decide!

/-! ## Capacities that are negative or not integers -/

theorem forLoop_const {σ : Type} (body : Int → σ → Option σ) (lo hi : Int) (s : σ)
    (hbody : ∀ x, lo ≤ x → x ≤ hi → body x s = some s) :
    forLoop lo hi body s = some s := by
  by_cases hle : lo ≤ hi + 1
  · obtain ⟨s', hs, hinv⟩ := forLoop_inv body (fun _ t => t = s) lo hi s hle rfl (by
      intro x t hx hx' ht
      subst ht
      exact ⟨t, hbody x hx hx', rfl⟩)
    rw [hs, hinv]
  · exact forLoop_empty body lo hi s (by omega)

theorem forLoop_first_none {σ : Type} (body : Int → σ → Option σ) (lo hi : Int) (s : σ)
    (hle : lo ≤ hi) (hnone : body lo s = none) : forLoop lo hi body s = none := by
  unfold forLoop
  obtain ⟨k, hk⟩ : ∃ k : Nat, (hi + 1 - lo).toNat = k + 1 := ⟨(hi - lo).toNat, by omega⟩
  rw [hk, loopFrom, hnone]
  rfl

theorem truncate_le_neg_one (tw : ℚ) (h : tw ≤ -1) : truncate tw ≤ -1 :=
  truncate_le_of_le tw (-1) (by exact_mod_cast h)

/-- For a capacity of at most -1 no table is obtained: the conversion to `int` is out
of range, or a vector of negative size is requested, or the rows have no column and
the write `T[0][0] = 0` is out of range. -/
theorem dpTable_none_of_neg (foods : FoodVector) (tw : ℚ) (h : tw ≤ -1) :
    dpTable foods tw = none := by
  have hW := truncate_le_neg_one tw h
  unfold dpTable
  cases hW' : toInt tw with
  | none => rfl
  | some W =>
    obtain ⟨hWeq, _, _⟩ := checkInt_eq_some _ _ hW'
    cases hn' : checkInt (foods.length : Int) with
    | none => rfl
    | some n =>
      obtain ⟨hneq, _, hnmax⟩ := checkInt_eq_some _ _ hn'
      simp only [Option.some_bind]
      subst hneq
      cases hnew : newTable (foods.length : Int) W with
      | none => rfl
      | some T0 =>
        simp only [Option.some_bind]
        unfold newTable at hnew
        cases hr : checkInt ((foods.length : Int) + 1) with
        | none => rw [hr] at hnew; exact Option.noConfusion hnew
        | some rows =>
          obtain ⟨hrows, _, _⟩ := checkInt_eq_some _ _ hr
          cases hc : checkInt (W + 1) with
          | none => rw [hr, hc] at hnew; exact Option.noConfusion hnew
          | some cols =>
            obtain ⟨hcols, _, _⟩ := checkInt_eq_some _ _ hc
            rw [hr, hc] at hnew
            simp only [Option.some_bind] at hnew
            by_cases hneg : rows < 0 ∨ cols < 0
            · rw [if_pos hneg] at hnew; exact Option.noConfusion hnew
            · rw [if_neg hneg] at hnew
              have hW1 : W = -1 := by omega
              subst hW1
              have hT0 : T0 = List.replicate (foods.length + 1) [] := by
                have h1 : rows.toNat = foods.length + 1 := by omega
                have h2 : cols.toNat = 0 := by omega
                rw [h1, h2] at hnew
                exact (Option.some.inj hnew).symm
              subst hT0
              have hneg1 : initNegative (foods.length : Int) (-1)
                  (List.replicate (foods.length + 1) [])
                  = some (List.replicate (foods.length + 1) []) := by
                unfold initNegative
                apply forLoop_const
                intro x _ _
                exact forLoop_empty _ 1 (-1) _ (by omega)
              have hrow : initRowZero (-1) (List.replicate (foods.length + 1) [])
                  = some (List.replicate (foods.length + 1) []) :=
                forLoop_empty _ 0 (-1) _ (by omega)
              have hcol : initColZero (foods.length : Int)
                  (List.replicate (foods.length + 1) []) = none := by
                unfold initColZero
                apply forLoop_first_none _ 0 _ _ (by omega)
                simp [Table.write, List.replicate_succ]
              rw [hneg1, Option.some_bind, hrow, Option.some_bind, hcol]
              rfl

/-- C13 (counterexample): the non-integer capacity 2.5 is truncated to 2 and a solution
is returned, and the negative capacity -0.5 is truncated to 0 and the empty solution
is returned; neither call fails. Besides, for the capacity three thousand million the
conversion to `int` is out of range and no solution is returned. -/
theorem dynamic_accepts_invalid_capacity :
    dynamic_max_calories exampleCatalog (5 / 2) = some [itemA]
      ∧ dynamic_max_calories exampleCatalog (-1 / 2) = some []
      ∧ dynamic_max_calories exampleCatalog 3000000000 = none := by
  decide!

/-- C13 (amended): `dynamic_max_calories` does not validate the capacity: it converts it
to `int` (truncation towards zero) and behaves exactly as for the truncated capacity.
For a capacity above -1 and below `2^31 - 1` (with fewer than `2^31 - 1` items, finite
doubles of magnitude at most `2^960`, of positive weights below `2^31`) a solution is
returned; for a capacity of at most -1 no solution is returned, because the table
cannot be built or its first write is out of range. -/
theorem dynamic_capacity_truncated (foods : FoodVector) (tw : ℚ) :
    dynamic_max_calories foods tw = dynamic_max_calories foods ((truncate tw : Int) : ℚ)
      ∧ (-1 < tw → tw < 2147483647 → foods.length < 2147483647 →
          (∀ f ∈ foods, f.Representable) →
          (∀ f ∈ foods, 0 < f.weight ∧ f.weight < 2147483648) →
          ∃ r, dynamic_max_calories foods tw = some r)
      ∧ (tw ≤ -1 → dynamic_max_calories foods tw = none) := by
  refine ⟨dynamic_max_calories_trunc foods tw, ?_, ?_⟩
  · intro h hlt hn hr hw
    exact ⟨_, dynamic_max_calories_eq_of_gt foods tw h hlt hn hw
      (fun f hf => (hr f hf).1.1)⟩
  · intro h
    unfold dynamic_max_calories
    rw [dpTable_none_of_neg foods tw h]
    rfl

theorem dynamic_capacity_truncated_witness :
    (dynamic_max_calories exampleCatalog (-3 / 2)
        = dynamic_max_calories exampleCatalog ((truncate (-3 / 2) : Int) : ℚ))
      ∧ (∃ r, dynamic_max_calories exampleCatalog (5 / 2) = some r)
      ∧ dynamic_max_calories exampleCatalog (-3 / 2) = none :=
  ⟨(dynamic_capacity_truncated exampleCatalog (-3 / 2)).1,
    (dynamic_capacity_truncated exampleCatalog (5 / 2)).2.1 (by decide!) (by decide!)
      (by decide) (by decide!) (by decide!),
    (dynamic_capacity_truncated exampleCatalog (-3 / 2)).2.2 (by decide!)⟩

/-! ## Filtering -/

theorem toUnsigned_natCast (ts : Nat) (h : ts < 2 ^ 31) : toUnsigned (ts : Int) = ts := by
  unfold toUnsigned
  norm_num at h ⊢
  omega

theorem filter_loop_spec (min_calories max_calories : ℚ) (ts : Nat) (h2 : ts < 2 ^ 31)
    (source : FoodVector) (sel : Nat) (acc : FoodVector) (hsel : sel < ts) :
    filter_loop min_calories max_calories (ts : Int) source sel acc
      = acc ++ (source.filter (inRange min_calories max_calories)).take (ts - sel) := by
  have hts := toUnsigned_natCast ts h2
  induction source generalizing sel acc with
  | nil => simp [filter_loop]
  | cons food rest ih =>
    rw [filter_loop, hts]
    have hmod : (sel + 1) % 2 ^ 32 = sel + 1 := by
      norm_num at h2 ⊢
      omega
    rw [hmod]
    by_cases hr : food.foodCalories ≥ min_calories ∧ food.foodCalories ≤ max_calories
    · have hin : inRange min_calories max_calories food = true := by
        simp only [inRange, decide_eq_true_eq]; exact hr
      rw [if_pos ⟨le_of_lt hsel, hr⟩, List.filter_cons_of_pos hin]
      obtain ⟨d, hd⟩ : ∃ d, ts - sel = d + 1 := ⟨ts - sel - 1, by omega⟩
      rw [hd, List.take_succ_cons]
      by_cases hfull : sel + 1 ≥ ts
      · rw [if_pos hfull]
        have hd0 : d = 0 := by omega
        simp [hd0]
      · rw [if_neg hfull, ih (sel + 1) (acc ++ [food]) (by omega)]
        have : ts - (sel + 1) = d := by omega
        rw [this]
        simp
    · have hin : ¬ inRange min_calories max_calories food = true := by
        simp only [inRange, decide_eq_true_eq]; exact hr
      rw [if_neg (fun h => hr h.2), List.filter_cons_of_neg hin]
      exact ih sel acc hsel

/-- For a positive `total_size`, `filter_food_vector` returns the first `total_size`
items of `source` whose calories lie in the inclusive range. -/
theorem filter_food_vector_of_pos (source : FoodVector) (min_calories max_calories : ℚ)
    (ts : Nat) (h1 : 1 ≤ ts) (h2 : ts < 2 ^ 31) :
    filter_food_vector source min_calories max_calories (ts : Int)
      = (source.filter (inRange min_calories max_calories)).take ts := by
  unfold filter_food_vector
  rw [filter_loop_spec min_calories max_calories ts h2 source 0 [] (by omega)]
  simp

/-- C14 (evaluation at the failing input): with `total_size = 0` the test
`selectedFoods <= total_size` still admits the first matching item, so one item is
returned although the first 0 matching items are the empty vector. -/
theorem filter_zero_size_returns_item :
    filter_food_vector [snack, snack] 0 10 0 = [snack]
      ∧ ([snack, snack].filter (inRange 0 10)).take 0 = []
      ∧ ¬ (filter_food_vector [snack, snack] 0 10 0).length ≤ 0 := by
  decide!


/-! ## The stored table: recurrence, optimum and index bounds -/

end MaxCalorie

namespace SensorCluster

/-! ## Hash functions -/

theorem hexa_to_number_other_digits :
    ∀ p ∈ [('0', 0), ('1', 1), ('2', 2), ('3', 3), ('4', 4), ('5', 5), ('6', 6), ('7', 7),
        ('8', 8), ('9', 9), ('A', 10), ('B', 11), ('C', 12), ('D', 13), ('E', 14),
        ('a', 10), ('b', 11), ('c', 12), ('d', 13), ('e', 14)],
      hexa_to_number p.1 = p.2 := by
  decide!

/-- C15 (evaluation at the failing input): the table of letters ends in `'G'` instead of
`'F'`, so `'F'` and `'f'` are not found and map to 0 (and `'G'` maps to 15); a hash on a
character `F` is therefore 0, not 15. -/
theorem hexa_to_number_F_is_zero :
    hexa_to_number 'F' = 0 ∧ hexa_to_number 'f' = 0 ∧ hexa_to_number 'G' = 15
      ∧ hashfct1 "F00000" = some 0 ∧ hashfct6 "00000F" = some 0 := by
  decide!

/-! ## Choice of the hash function -/

theorem toInt32_of_le (x : Nat) (h : (x : Int) ≤ INT32_MAX) : toInt32 x = x := by
  unfold toInt32
  unfold INT32_MAX at h
  norm_num
  omega

theorem scanTables_aux_succ (b : Nat → Nat → Nat) (k : Nat) (t : Nat) :
    ((List.range (k + 1)).foldl (scanStep b) (fun _ => (INT32_MAX, 0))) t
      = (min (toInt32 (b t k)) (((List.range k).foldl (scanStep b) (fun _ => (INT32_MAX, 0))) t).1,
         max (toInt32 (b t k)) (((List.range k).foldl (scanStep b) (fun _ => (INT32_MAX, 0))) t).2) := by
  rw [List.range_succ, List.foldl_append]
  rfl

theorem scanTables_aux_extremes (b : Nat → Nat → Nat)
    (hb : ∀ t i, (b t i : Int) ≤ INT32_MAX) (t : Nat) (k : Nat) :
    (∀ i, i < k + 1 →
        (((List.range (k + 1)).foldl (scanStep b) (fun _ => (INT32_MAX, 0))) t).1 ≤ (b t i : Int)
        ∧ (b t i : Int) ≤ (((List.range (k + 1)).foldl (scanStep b) (fun _ => (INT32_MAX, 0))) t).2)
      ∧ (∃ i, i < k + 1 ∧
          (b t i : Int) = (((List.range (k + 1)).foldl (scanStep b) (fun _ => (INT32_MAX, 0))) t).1)
      ∧ (∃ i, i < k + 1 ∧
          (b t i : Int) = (((List.range (k + 1)).foldl (scanStep b) (fun _ => (INT32_MAX, 0))) t).2) := by
  induction k with
  | zero =>
    rw [scanTables_aux_succ, toInt32_of_le _ (hb t 0)]
    have h0 : (0 : Int) ≤ (b t 0 : Int) := Int.natCast_nonneg _
    have h1 := hb t 0
    simp only [List.range_zero, List.foldl_nil]
    rw [min_eq_left h1, max_eq_left h0]
    refine ⟨?_, ⟨0, by omega, rfl⟩, ⟨0, by omega, rfl⟩⟩
    intro i hi
    have : i = 0 := by omega
    subst this
    exact ⟨le_refl _, le_refl _⟩
  | succ k ih =>
    obtain ⟨hall, ⟨ilo, hilo, hlo⟩, ⟨ihi, hihi, hhi⟩⟩ := ih
    rw [scanTables_aux_succ, toInt32_of_le _ (hb t (k + 1))]
    simp only []
    refine ⟨?_, ?_, ?_⟩
    · intro i hi
      by_cases hik : i = k + 1
      · subst hik
        exact ⟨min_le_left _ _, le_max_left _ _⟩
      · obtain ⟨h1, h2⟩ := hall i (by omega)
        exact ⟨le_trans (min_le_right _ _) h1, le_trans h2 (le_max_right _ _)⟩
    · rcases le_total (b t (k + 1) : Int)
        (((List.range (k + 1)).foldl (scanStep b) (fun _ => (INT32_MAX, 0))) t).1 with h | h
      · exact ⟨k + 1, by omega, by rw [min_eq_left h]⟩
      · exact ⟨ilo, by omega, by rw [min_eq_right h]; exact hlo⟩
    · rcases le_total (b t (k + 1) : Int)
        (((List.range (k + 1)).foldl (scanStep b) (fun _ => (INT32_MAX, 0))) t).2 with h | h
      · exact ⟨ihi, by omega, by rw [max_eq_right h]; exact hhi⟩
      · exact ⟨k + 1, by omega, by rw [max_eq_left h]⟩

/-- The pair computed by the first loop holds the smallest and the largest size among
the buckets `0 .. 9` of the table. -/
theorem scanTables_extremes (b : Nat → Nat → Nat)
    (hb : ∀ t i, (b t i : Int) ≤ INT32_MAX) (t : Nat) :
    (∀ i, i < 10 → (scanTables b t).1 ≤ (b t i : Int) ∧ (b t i : Int) ≤ (scanTables b t).2)
      ∧ (∃ i, i < 10 ∧ (b t i : Int) = (scanTables b t).1)
      ∧ (∃ i, i < 10 ∧ (b t i : Int) = (scanTables b t).2) :=
  scanTables_aux_extremes b hb t 9

theorem spread_bounds (b : Nat → Nat → Nat)
    (hb : ∀ t i, (b t i : Int) ≤ INT32_MAX) (t : Nat) :
    0 ≤ spread b t ∧ spread b t ≤ INT32_MAX := by
  obtain ⟨hall, ⟨ilo, _, hlo⟩, ⟨ihi, _, hhi⟩⟩ := scanTables_extremes b hb t
  have h1 := hall 0 (by omega)
  have h2 := hb t ihi
  have h3 : (0 : Int) ≤ (b t ilo : Int) := Int.natCast_nonneg _
  unfold spread
  constructor
  · linarith [h1.1, h1.2]
  · rw [← hhi, ← hlo]; linarith

theorem pickLoop_succ (tables : Nat → Int × Int) (k : Nat) :
    pickLoop tables (k + 1) = pickStep tables (pickLoop tables k) k := by
  simp [pickLoop, List.range_succ, List.foldl_append]

theorem pickLoop_inv (tables : Nat → Int × Int)
    (hs : ∀ t, (tables t).2 - (tables t).1 ≤ INT32_MAX) (k : Nat) :
    (pickLoop tables k = (-1, INT32_MAX) ∧ ∀ t, t < k → (tables t).2 - (tables t).1 ≤ 0)
      ∨ ∃ m, m < k ∧ pickLoop tables k = ((m : Int), (tables m).2 - (tables m).1)
          ∧ 0 < (tables m).2 - (tables m).1
          ∧ ∀ t, t < k → 0 < (tables t).2 - (tables t).1 →
              (tables m).2 - (tables m).1 ≤ (tables t).2 - (tables t).1 := by
  induction k with
  | zero => exact Or.inl ⟨rfl, by intro t ht; omega⟩
  | succ k ih =>
    rw [pickLoop_succ]
    unfold pickStep
    rcases ih with ⟨hst, hnone⟩ | ⟨m, hm, hst, hpos, hmin⟩
    · rw [hst]
      by_cases hk : (tables k).2 - (tables k).1 > 0
      · rw [if_pos ⟨hs k, hk⟩]
        refine Or.inr ⟨k, by omega, rfl, hk, ?_⟩
        intro t ht htpos
        by_cases htk : t = k
        · subst htk; exact le_refl _
        · have := hnone t (by omega)
          omega
      · rw [if_neg (fun h => hk h.2)]
        refine Or.inl ⟨rfl, ?_⟩
        intro t ht
        by_cases htk : t = k
        · subst htk; omega
        · exact hnone t (by omega)
    · rw [hst]
      by_cases hk : (tables k).2 - (tables k).1 ≤ (tables m).2 - (tables m).1
          ∧ (tables k).2 - (tables k).1 > 0
      · rw [if_pos hk]
        refine Or.inr ⟨k, by omega, rfl, hk.2, ?_⟩
        intro t ht htpos
        by_cases htk : t = k
        · subst htk; exact le_refl _
        · exact le_trans hk.1 (hmin t (by omega) htpos)
      · rw [if_neg hk]
        refine Or.inr ⟨m, by omega, rfl, hpos, ?_⟩
        intro t ht htpos
        by_cases htk : t = k
        · subst htk
          by_contra hc
          exact hk ⟨by omega, htpos⟩
        · exact hmin t (by omega) htpos

/-- C17 (evaluation at the failing input): every bucket `0 .. 9` of table 1 holds one
entry (spread 0) and each of the other five tables has two entries in bucket 0 and none
elsewhere (spread 2), yet `bestHashing` returns 6, a table whose spread is larger than
that of table 1; and for the empty network, where every spread is 0, it returns 0,
which names no table. The spreads are given both as the function computes them and
directly from the bucket sizes. -/
theorem bestHashing_skips_balanced_table :
    bestHashing balancedFirst = 6
      ∧ spread balancedFirst 0 = 0 ∧ spread balancedFirst 5 = 2
      ∧ ¬ spread balancedFirst 5 ≤ spread balancedFirst 0
      ∧ bestHashing allEmpty = 0
      ∧ (∀ i, i < 10 → balancedFirst 0 i = 1)
      ∧ balancedFirst 5 0 = 2 ∧ (∀ i, i < 10 → 0 < i → balancedFirst 5 i = 0)
      ∧ spreadSpec balancedFirst 0 = 0 ∧ spreadSpec balancedFirst 5 = 2
      ∧ (∀ t, t < 6 → spreadSpec allEmpty t = 0) := by
  decide!

/-- What `bestHashing` does compute, for bucket sizes that fit an `int`: it only
considers the tables with a positive spread. When some table has a positive spread it
returns a number `k` in `1 .. 6` whose spread is positive and at most the spread of
every table with a positive spread; when every table has spread 0 it returns 0. -/
theorem bestHashing_smallest_positive_spread (b : Nat → Nat → Nat)
    (hb : ∀ t i, (b t i : Int) ≤ INT32_MAX) :
    ((∀ t, t < 6 → spread b t = 0) → bestHashing b = 0)
      ∧ ((∃ t, t < 6 ∧ 0 < spread b t) →
          1 ≤ bestHashing b ∧ bestHashing b ≤ 6 ∧ 0 < spread b (bestHashing b - 1)
            ∧ ∀ t, t < 6 → 0 < spread b t →
                spread b (bestHashing b - 1) ≤ spread b t) := by
  have hinv := pickLoop_inv (scanTables b) (fun t => (spread_bounds b hb t).2) 6
  constructor
  · intro hzero
    rcases hinv with ⟨hst, _⟩ | ⟨m, hm, _, hpos, _⟩
    · unfold bestHashing
      rw [hst]
      rfl
    · have := hzero m hm
      unfold spread at this
      omega
  · rintro ⟨t, ht, htpos⟩
    rcases hinv with ⟨_, hnone⟩ | ⟨m, hm, hst, hpos, hmin⟩
    · have := hnone t ht
      unfold spread at htpos
      omega
    · have hres : bestHashing b = m + 1 := by
        unfold bestHashing
        rw [hst]
        simp only []
        omega
      rw [hres]
      refine ⟨by omega, by omega, ?_, ?_⟩
      · simpa [spread] using hpos
      · intro t' ht' hpos'
        simpa [spread] using hmin t' ht' hpos'

theorem bestHashing_smallest_positive_spread_witness :
    bestHashing allEmpty = 0
      ∧ (1 ≤ bestHashing mixedBuckets ∧ bestHashing mixedBuckets ≤ 6
          ∧ 0 < spread mixedBuckets (bestHashing mixedBuckets - 1)
          ∧ ∀ t, t < 6 → 0 < spread mixedBuckets t →
              spread mixedBuckets (bestHashing mixedBuckets - 1) ≤ spread mixedBuckets t) :=
  ⟨(bestHashing_smallest_positive_spread allEmpty (by
        intro t i
        simp [allEmpty, INT32_MAX])).1 (by decide!),
    (bestHashing_smallest_positive_spread mixedBuckets (by
        intro t i
        unfold mixedBuckets INT32_MAX
        split_ifs <;> simp)).2 ⟨0, by decide, by decide!⟩⟩


/-! ## The six tables stay identical -/

theorem keys_insert (t : HashTable) (nic : String) (item : Item) :
    (t.insert nic item).keys = if nic ∈ t.keys then t.keys else t.keys ++ [nic] := by
  unfold HashTable.insert
  by_cases h : nic ∈ t.keys
  · rw [if_pos h, if_pos h]
  · rw [if_neg h, if_neg h]
    simp [HashTable.keys]

theorem keys_erase (t : HashTable) (nic : String) :
    (t.erase nic).1.keys = t.keys.filter (fun k => k != nic) := by
  simp only [HashTable.erase, HashTable.keys, List.filter_map]
  rfl

theorem mem_keys_erase (t : HashTable) (nic k : String) :
    k ∈ (t.erase nic).1.keys ↔ k ∈ t.keys ∧ k ≠ nic := by
  rw [keys_erase]
  simp

theorem nodup_insert (t : HashTable) (nic : String) (item : Item) (h : t.keys.Nodup) :
    (t.insert nic item).keys.Nodup := by
  rw [keys_insert]
  by_cases hm : nic ∈ t.keys
  · rw [if_pos hm]; exact h
  · rw [if_neg hm]
    rw [List.nodup_append]
    refine ⟨h, List.nodup_singleton _, ?_⟩
    intro a ha hb
    rw [List.mem_singleton] at hb
    subst hb
    exact hm ha

theorem nodup_erase (t : HashTable) (nic : String) (h : t.keys.Nodup) :
    (t.erase nic).1.keys.Nodup := by
  rw [keys_erase]
  exact h.filter _

theorem erase_of_not_mem (t : HashTable) (nic : String) (h : nic ∉ t.keys) :
    t.erase nic = (t, 0) := by
  have hne : ∀ e ∈ t.entries, e.1 ≠ nic := by
    intro e he heq
    apply h
    rw [← heq]
    exact List.mem_map_of_mem Prod.fst he
  unfold HashTable.erase
  have h1 : t.entries.filter (fun e => e.1 != nic) = t.entries := by
    rw [List.filter_eq_self]
    intro e he
    simpa using hne e he
  have h2 : t.entries.filter (fun e => e.1 == nic) = [] := by
    rw [List.filter_eq_nil_iff]
    intro e he
    simpa using hne e he
  rw [h1, h2]
  rfl

theorem entries_count_of_mem (l : List (String × Item)) (nic : String)
    (hnd : (l.map Prod.fst).Nodup) (hm : nic ∈ l.map Prod.fst) :
    (l.filter (fun e => e.1 == nic)).length = 1
      ∧ (l.filter (fun e => e.1 != nic)).length + 1 = l.length := by
  induction l with
  | nil => simp at hm
  | cons e l ih =>
    rw [List.map_cons, List.nodup_cons] at hnd
    by_cases he : e.1 = nic
    · have hnot : nic ∉ l.map Prod.fst := by rw [← he]; exact hnd.1
      have h0 := erase_of_not_mem ⟨l⟩ nic hnot
      unfold HashTable.erase at h0
      simp only [Prod.mk.injEq, HashTable.mk.injEq] at h0
      have h1 : (e :: l).filter (fun e => e.1 == nic) = e :: l.filter (fun e => e.1 == nic) := by
        rw [List.filter_cons_of_pos]; simpa using he
      have h2 : (e :: l).filter (fun e => e.1 != nic) = l.filter (fun e => e.1 != nic) := by
        rw [List.filter_cons_of_neg]; simpa using he
      rw [h1, h2, h0.1, List.length_cons, h0.2, List.length_cons]
      exact ⟨rfl, rfl⟩
    · have hm' : nic ∈ l.map Prod.fst := by
        rw [List.map_cons, List.mem_cons] at hm
        rcases hm with h | h
        · exact absurd h.symm he
        · exact h
      obtain ⟨ih1, ih2⟩ := ih hnd.2 hm'
      have h1 : (e :: l).filter (fun e => e.1 == nic) = l.filter (fun e => e.1 == nic) := by
        rw [List.filter_cons_of_neg]; simpa using he
      have h2 : (e :: l).filter (fun e => e.1 != nic) = e :: l.filter (fun e => e.1 != nic) := by
        rw [List.filter_cons_of_pos]; simpa using he
      rw [h1, h2, ih1, List.length_cons, List.length_cons, ih2]
      exact ⟨rfl, rfl⟩

theorem erase_of_mem (t : HashTable) (nic : String) (hnd : t.keys.Nodup) (hm : nic ∈ t.keys) :
    (t.erase nic).2 = 1 ∧ (t.erase nic).1.size + 1 = t.size :=
  entries_count_of_mem t.entries nic hnd hm

theorem consistent_empty : SensorNIC.empty.Consistent :=
  ⟨rfl, rfl, rfl, rfl, rfl, List.nodup_nil⟩

theorem consistent_addItem (s : SensorNIC) (itemName nic : String) (h : s.Consistent) :
    (s.addItem itemName nic).Consistent := by
  obtain ⟨h2, h3, h4, h5, h6, hnd⟩ := h
  unfold SensorNIC.addItem
  simp only [SensorNIC.Consistent, h2, h3, h4, h5, h6, true_and]
  exact nodup_insert _ _ _ hnd

theorem consistent_removeItem (s : SensorNIC) (nic : String) (h : s.Consistent) :
    (s.removeItem nic).2.Consistent := by
  obtain ⟨h2, h3, h4, h5, h6, hnd⟩ := h
  unfold SensorNIC.removeItem
  simp only [SensorNIC.Consistent, h2, h3, h4, h5, h6, true_and]
  exact nodup_erase _ _ hnd

theorem consistent_step (s : SensorNIC) (op : Op) (h : s.Consistent) :
    (s.step op).Consistent := by
  cases op with
  | add itemName nic => exact consistent_addItem s itemName nic h
  | remove nic => exact consistent_removeItem s nic h

theorem run_concat (ops : List Op) (op : Op) :
    SensorNIC.run (ops ++ [op]) = (SensorNIC.run ops).step op := by
  simp [SensorNIC.run, List.foldl_append]

theorem consistent_run (ops : List Op) : (SensorNIC.run ops).Consistent := by
  induction ops using List.reverseRecOn with
  | nil => exact consistent_empty
  | append_singleton ops op ih =>
    rw [run_concat]
    exact consistent_step _ op ih

theorem size_of_consistent (s : SensorNIC) (h : s.Consistent) :
    s.size = some s.hT1.keys.length := by
  obtain ⟨h2, h3, h4, h5, h6, _⟩ := h
  unfold SensorNIC.size
  rw [h2, h3, h4, h5, h6, if_neg (by simp)]
  simp [HashTable.size, HashTable.keys]

theorem present_concat (ops : List Op) (op : Op) (nic : String) :
    present (ops ++ [op]) nic
      = (match op with
        | Op.add _ n => if n = nic then true else present ops nic
        | Op.remove n => if n = nic then false else present ops nic) := by
  simp [present, List.foldl_append]

theorem mem_keys_run (ops : List Op) (nic : String) :
    nic ∈ (SensorNIC.run ops).hT1.keys ↔ present ops nic = true := by
  induction ops using List.reverseRecOn with
  | nil => simp [SensorNIC.run, SensorNIC.empty, HashTable.keys, present]
  | append_singleton ops op ih =>
    rw [run_concat, present_concat]
    cases op with
    | add itemName n =>
      simp only [SensorNIC.step, SensorNIC.addItem]
      rw [keys_insert]
      by_cases hn : n = nic
      · subst hn
        by_cases hm : n ∈ (SensorNIC.run ops).hT1.keys
        · simp [hm]
        · simp [hm]
      · by_cases hm : n ∈ (SensorNIC.run ops).hT1.keys
        · simp [hm, hn, ih]
        · have : nic ≠ n := fun h => hn h.symm
          simp [hm, hn, ih, this]
    | remove n =>
      simp only [SensorNIC.step, SensorNIC.removeItem]
      rw [mem_keys_erase]
      by_cases hn : n = nic
      · subst hn
        simp
      · have : nic ≠ n := fun h => hn h.symm
        simp [hn, ih, this]


/-! ## Claims on the network -/

/-- C16: in every network reached from the empty one by `addItem` / `removeItem` calls,
`removeItem nic` returns true exactly when `nic` is a key of the network; in that case
`nic` is absent from all six tables afterwards and `size()` is one smaller; otherwise
it returns false and leaves the six tables unchanged. -/
theorem removeItem_spec (ops : List Op) (nic : String) :
    (((SensorNIC.run ops).removeItem nic).1 = true ↔ nic ∈ (SensorNIC.run ops).hT1.keys)
      ∧ (nic ∈ (SensorNIC.run ops).hT1.keys →
          nic ∉ ((SensorNIC.run ops).removeItem nic).2.hT1.keys
          ∧ nic ∉ ((SensorNIC.run ops).removeItem nic).2.hT2.keys
          ∧ nic ∉ ((SensorNIC.run ops).removeItem nic).2.hT3.keys
          ∧ nic ∉ ((SensorNIC.run ops).removeItem nic).2.hT4.keys
          ∧ nic ∉ ((SensorNIC.run ops).removeItem nic).2.hT5.keys
          ∧ nic ∉ ((SensorNIC.run ops).removeItem nic).2.hT6.keys
          ∧ ∃ k, (SensorNIC.run ops).size = some (k + 1)
              ∧ ((SensorNIC.run ops).removeItem nic).2.size = some k)
      ∧ (nic ∉ (SensorNIC.run ops).hT1.keys →
          (SensorNIC.run ops).removeItem nic = (false, SensorNIC.run ops)) := by
  have hc := consistent_run ops
  have hc' := consistent_removeItem (SensorNIC.run ops) nic hc
  obtain ⟨h2, h3, h4, h5, h6, hnd⟩ := hc
  have habs : nic ∉ ((SensorNIC.run ops).hT1.erase nic).1.keys := by
    rw [mem_keys_erase]
    exact fun h => h.2 rfl
  refine ⟨?_, ?_, ?_⟩
  · by_cases hm : nic ∈ (SensorNIC.run ops).hT1.keys
    · have h1 := (erase_of_mem _ nic hnd hm).1
      simp [SensorNIC.removeItem, h2, h3, h4, h5, h6, h1, hm]
    · have h1 := erase_of_not_mem _ nic hm
      simp [SensorNIC.removeItem, h2, h3, h4, h5, h6, h1, hm]
  · intro hm
    have hsz := (erase_of_mem _ nic hnd hm).2
    refine ⟨?_, ?_, ?_, ?_, ?_, ?_, ?_⟩
    · simpa [SensorNIC.removeItem] using habs
    · simpa [SensorNIC.removeItem, h2] using habs
    · simpa [SensorNIC.removeItem, h3] using habs
    · simpa [SensorNIC.removeItem, h4] using habs
    · simpa [SensorNIC.removeItem, h5] using habs
    · simpa [SensorNIC.removeItem, h6] using habs
    · refine ⟨((SensorNIC.run ops).hT1.erase nic).1.size, ?_, ?_⟩
      · rw [size_of_consistent _ (consistent_run ops), hsz]
        simp [HashTable.size, HashTable.keys]
      · rw [size_of_consistent _ hc']
        simp [SensorNIC.removeItem, HashTable.size, HashTable.keys]
  · intro hm
    have h1 := erase_of_not_mem _ nic hm
    unfold SensorNIC.removeItem
    rw [h2, h3, h4, h5, h6, h1]
    simp only [add_zero, ne_eq, not_true_eq_false, decide_False, Prod.mk.injEq, true_and]
    cases hs : SensorNIC.run ops with
    | mk a b c d e f =>
      rw [hs] at h2 h3 h4 h5 h6
      simp only at h2 h3 h4 h5 h6
      subst h2 h3 h4 h5 h6
      rfl

theorem removeItem_spec_witness :
    ((SensorNIC.run [Op.add "s1" "AA00", Op.add "s2" "BB11"]).removeItem "AA00").1 = true
      ∧ (SensorNIC.run [Op.add "s1" "AA00", Op.add "s2" "BB11"]).removeItem "CC22"
          = (false, SensorNIC.run [Op.add "s1" "AA00", Op.add "s2" "BB11"]) :=
  ⟨(removeItem_spec [Op.add "s1" "AA00", Op.add "s2" "BB11"] "AA00").1.2 (by decide!),
    (removeItem_spec [Op.add "s1" "AA00", Op.add "s2" "BB11"] "CC22").2.2 (by decide!)⟩

/-- C20: after every finite sequence of `addItem` and `removeItem` calls from the empty
network, the six tables hold the same keys, each key once, namely the NICs whose last
call was an `addItem`; hence the six sizes are equal, and `size()` does not throw and
returns the number of NICs in the network. -/
theorem tables_agree_and_size (ops : List Op) :
    (SensorNIC.run ops).hT2.keys = (SensorNIC.run ops).hT1.keys
      ∧ (SensorNIC.run ops).hT3.keys = (SensorNIC.run ops).hT1.keys
      ∧ (SensorNIC.run ops).hT4.keys = (SensorNIC.run ops).hT1.keys
      ∧ (SensorNIC.run ops).hT5.keys = (SensorNIC.run ops).hT1.keys
      ∧ (SensorNIC.run ops).hT6.keys = (SensorNIC.run ops).hT1.keys
      ∧ (SensorNIC.run ops).hT1.keys.Nodup
      ∧ (∀ nic, nic ∈ (SensorNIC.run ops).hT1.keys ↔ present ops nic = true)
      ∧ (SensorNIC.run ops).hT2.size = (SensorNIC.run ops).hT1.size
      ∧ (SensorNIC.run ops).hT3.size = (SensorNIC.run ops).hT1.size
      ∧ (SensorNIC.run ops).hT4.size = (SensorNIC.run ops).hT1.size
      ∧ (SensorNIC.run ops).hT5.size = (SensorNIC.run ops).hT1.size
      ∧ (SensorNIC.run ops).hT6.size = (SensorNIC.run ops).hT1.size
      ∧ (SensorNIC.run ops).size = some (SensorNIC.run ops).hT1.keys.length := by
  have hc := consistent_run ops
  have hsz := size_of_consistent _ hc
  obtain ⟨h2, h3, h4, h5, h6, hnd⟩ := hc
  refine ⟨by rw [h2], by rw [h3], by rw [h4], by rw [h5], by rw [h6], hnd,
    fun nic => mem_keys_run ops nic, by rw [h2], by rw [h3], by rw [h4], by rw [h5],
    by rw [h6], hsz⟩


end SensorCluster

